import Mathlib

/-!
# vmmgr.c : a demand-paged virtual memory manager

Shallow embedding of `src/vmmgr.c` and theorems about it.

Conventions of the embedding.

* A C `int` is a Lean `Int`.  No arithmetic of the program leaves the 32-bit
  range except the clock `tlb_hits`, which grows by at most two per
  translation; its overflow (undefined in C) is not modelled.
* A global C array `int t[N]` is a function `Nat → Int` that the program reads
  and writes at indices below `N` only.  `tlb[16][2]` is a function of the row
  and the column.
* `char physical_memory[MEMORY_SIZE]` is a function from byte offsets to `char`
  values.  `char` is signed (the program prints it with `%d` as a signed byte),
  so a cell holds a value in `-128..127`.  The function is total on `Int`: an
  access at an offset outside `0..MEMORY_SIZE-1` is outside the array, which
  `in_physical_memory` makes explicit.
* The backing store is the byte content of the file together with the set of
  offsets at which `fseek` succeeds.
* `exit(EXIT_FAILURE)` is the `Except.error` result, carrying the globals as
  they are when the process exits.
* C gives no meaning to a store outside an array, and what such a store
  overwrites depends on where the compiler has placed the other objects.  The
  embedding does not decide it.  `handle_page_fault` sets `out_of_array` when
  the page it loads does not fall inside `physical_memory`; from then on the
  state is that of one continuation only, the one in which the bytes after the
  array belong to no object of the program.  The first page fault of every run
  is such a store (`run_leaves_array`).  The lemmas marked "Continuation
  lemma" are facts about that continuation; evaluations along it show what the
  program does at best.
-/

namespace Vmmgr

/-! ## Constants (lines 7-13) -/

abbrev PAGE_SIZE : Int := 256
abbrev PAGE_TABLE_SIZE : Nat := 256
abbrev FRAME_SIZE : Int := 256
abbrev NUM_FRAMES : Int := 256
abbrev MEMORY_SIZE : Int := NUM_FRAMES * FRAME_SIZE
abbrev TLB_SIZE : Nat := 16
abbrev TLB_MISS : Int := -1
/-- The value of the C macro `EOF`. -/
abbrev EOF : Int := -1

/-! ## Globals (lines 15-26) -/

/-- The global variables of the program. -/
structure VM where
  page_table : Nat → Int
  page_table_last_access : Nat → Int
  tlb : Nat → Nat → Int
  tlb_last_access : Nat → Int
  free_frame_list : Nat → Int
  page_faults : Int
  tlb_hits : Int
  num_free_frames : Int
  physical_memory : Int → Int
  /-- Not a variable of the program: whether a store has been made outside
  `physical_memory`. -/
  out_of_array : Bool

/-- The backing store file: its bytes, and the offsets `fseek` accepts. -/
structure BackingStore where
  bytes : List Nat
  seekable : Int → Bool

/-- Array assignment `t[i] = v`. -/
def upd {α : Type} (t : Nat → α) (i : Nat) (v : α) : Nat → α :=
  fun j => if j = i then v else t j

/-- Assignment `t[i][c] = v` in a two-dimensional array. -/
def upd2 (t : Nat → Nat → Int) (i c : Nat) (v : Int) : Nat → Nat → Int :=
  upd t i (upd (t i) c v)

/-- The value of a `char` holding the byte `b`. -/
def to_char (b : Nat) : Int :=
  if b % 256 < 128 then ((b % 256 : Nat) : Int) else ((b % 256 : Nat) : Int) - 256

/-- Whether a byte offset lies inside `physical_memory[MEMORY_SIZE]`. -/
def in_physical_memory (i : Int) : Bool :=
  decide (0 ≤ i) && decide (i < MEMORY_SIZE)

/-- The array read `physical_memory[i]` of line 142; it has a value only
inside the array. -/
def read_physical_memory (s : VM) (i : Int) : Option Int :=
  if in_physical_memory i then some (s.physical_memory i) else none

/-- The effect of `fread(physical_memory + base, 1, n, f)` on memory when the
file supplied the bytes `got`: they are stored from `base` on. -/
def store_bytes (mem : Int → Int) (base : Int) (got : List Nat) : Int → Int :=
  fun i =>
    if base ≤ i ∧ i < base + got.length then to_char (got.getD (i - base).toNat 0)
    else mem i

/-- The bytes `fread` obtains for a request of `PAGE_SIZE` bytes at `offset`:
as many as the file has from there, at most `PAGE_SIZE`. -/
def fread_page (bs : BackingStore) (offset : Int) : List Nat :=
  (bs.bytes.drop offset.toNat).take PAGE_SIZE.toNat

/-- Whether the bytes `got`, stored from offset `base` on, all fall inside
`physical_memory[MEMORY_SIZE]`. -/
def store_in_array (base : Int) (got : List Nat) : Bool :=
  got.isEmpty || (in_physical_memory base && in_physical_memory (base + got.length - 1))

/-! ## Address decomposition (lines 28-34) -/

def extract_page_number (address : Int) : Int :=
  Int.land (address >>> (8 : Nat)) 0xFF

def extract_offset (address : Int) : Int :=
  Int.land address 0xFF

/-! ## The two scans over the TLB -/

/-- The loop of lines 74-81, from index `i` with `n` slots left: the first
slot whose page field equals `page_number`. -/
def tlb_scan (tlb : Nat → Nat → Int) (page_number : Int) : Nat → Nat → Option Nat
  | _, 0 => none
  | i, n + 1 =>
    if tlb i 0 = page_number then some i else tlb_scan tlb page_number (i + 1) n

/-- The TLB scan of `translate_address`. -/
def tlb_lookup (s : VM) (page_number : Int) : Option Nat :=
  tlb_scan s.tlb page_number 0 TLB_SIZE

/-- The loop of lines 54-59 and 92-97, from index `i` with `n` slots left and
the running `oldest_index`, `oldest_access`. -/
def oldest_scan (la : Nat → Int) : Nat → Nat → Nat → Int → Nat
  | _, 0, oldest_index, _ => oldest_index
  | i, n + 1, oldest_index, oldest_access =>
    if la i < oldest_access then oldest_scan la (i + 1) n i (la i)
    else oldest_scan la (i + 1) n oldest_index oldest_access

/-- Lines 52-59 and 90-97: the slot with the smallest stamp. -/
def oldest_index (la : Nat → Int) : Nat :=
  oldest_scan la 1 (TLB_SIZE - 1) 0 (la 0)

/-! ## The page fault handler (lines 36-67) -/

/-- The two fatal errors, with the page number reported and the globals at
the time of `exit`. -/
inductive Fatal where
  | seek_error (page_number : Int) (s : VM)
  | read_error (page_number : Int) (s : VM)

/-- The globals when the process exits on a fatal error. -/
def Fatal.state : Fatal → VM
  | .seek_error _ s => s
  | .read_error _ s => s

/-- Lines 36-67.  `fread` stores the bytes it obtains from offset
`num_free_frames * FRAME_SIZE` on, before the length test of line 44.  When
they do not all fall inside the array the store has no meaning in C:
`out_of_array` is set, and the cells and globals that follow are those of the
continuation in which nothing else is overwritten. -/
def handle_page_fault (bs : BackingStore) (page_number : Int) (s : VM) : Except Fatal VM :=
  if bs.seekable (page_number * PAGE_SIZE) = false then
    .error (.seek_error page_number s)
  else
    let got := fread_page bs (page_number * PAGE_SIZE)
    let loaded := store_bytes s.physical_memory (s.num_free_frames * FRAME_SIZE) got
    let outside := s.out_of_array || !store_in_array (s.num_free_frames * FRAME_SIZE) got
    let s1 := { s with physical_memory := loaded, out_of_array := outside }
    if got.length ≠ PAGE_SIZE.toNat then
      .error (.read_error page_number s1)
    else
      let s2 := { s1 with page_table := upd s1.page_table page_number.toNat s1.num_free_frames }
      let s3 := { s2 with tlb_hits := s2.tlb_hits + 1 }
      let stamped := upd s3.page_table_last_access page_number.toNat s3.tlb_hits
      let s4 := { s3 with page_table_last_access := stamped }
      let oldest := oldest_index s4.tlb_last_access
      let s5 := { s4 with tlb := upd2 s4.tlb oldest 0 page_number }
      let s6 := { s5 with tlb := upd2 s5.tlb oldest 1 s5.num_free_frames }
      let s7 := { s6 with tlb_last_access := upd s6.tlb_last_access oldest s6.tlb_hits }
      let s8 := { s7 with num_free_frames := s7.num_free_frames - 1 }
      .ok { s8 with page_faults := s8.page_faults + 1 }

/-! ## Translation (lines 69-107) -/

/-- Lines 76-79: the TLB-hit path at slot `i`. -/
def tlb_hit (s : VM) (i : Nat) (offset : Int) : Int × VM :=
  let s1 := { s with tlb_hits := s.tlb_hits + 1 }
  let s2 := { s1 with tlb_last_access := upd s1.tlb_last_access i s1.tlb_hits }
  let frame_number := s2.tlb i 1
  (frame_number * PAGE_SIZE + offset, s2)

/-- Lines 89-106: the TLB update after a miss, and the result. -/
def tlb_update (s : VM) (page_number offset : Int) : Int × VM :=
  let oldest := oldest_index s.tlb_last_access
  let s1 := { s with tlb := upd2 s.tlb oldest 0 page_number }
  let s2 := { s1 with tlb := upd2 s1.tlb oldest 1 (s1.page_table page_number.toNat) }
  let s3 := { s2 with tlb_hits := s2.tlb_hits + 1 }
  let s4 := { s3 with tlb_last_access := upd s3.tlb_last_access oldest s3.tlb_hits }
  let stamped := upd s4.page_table_last_access page_number.toNat s4.tlb_hits
  let s5 := { s4 with page_table_last_access := stamped }
  let frame_number := s5.page_table page_number.toNat
  (frame_number * PAGE_SIZE + offset, s5)

def translate_address (bs : BackingStore) (logical_address : Int) (s : VM) :
    Except Fatal (Int × VM) :=
  let page_number := extract_page_number logical_address
  let offset := extract_offset logical_address
  match tlb_lookup s page_number with
  | some i => .ok (tlb_hit s i offset)
  | none =>
    if s.page_table page_number.toNat = TLB_MISS then
      match handle_page_fault bs page_number s with
      | .error f => .error f
      | .ok s1 => .ok (tlb_update s1 page_number offset)
    else .ok (tlb_update s page_number offset)

/-- The three ways a translation is resolved. -/
inductive Path where
  | tlb_hit
  | table_hit
  | page_fault
  deriving DecidableEq, Repr

/-- The branch `translate_address` takes in state `s`: the conditions of
lines 75 and 84. -/
def path_of (s : VM) (logical_address : Int) : Path :=
  match tlb_lookup s (extract_page_number logical_address) with
  | some _ => .tlb_hit
  | none =>
    if s.page_table (extract_page_number logical_address).toNat = TLB_MISS then .page_fault
    else .table_hit

/-! ## The main program (lines 109-154) -/

/-- The globals when the translation loop starts: the static initialisers of
lines 15-24 and the loops of lines 127-136. -/
def init_state : VM where
  page_table := fun i => if i < PAGE_TABLE_SIZE then TLB_MISS else 0
  page_table_last_access := fun _ => 0
  tlb := fun i c => if i < TLB_SIZE ∧ c = 0 then TLB_MISS else 0
  tlb_last_access := fun _ => 0
  free_frame_list := fun i => if i < TLB_SIZE then (i : Int) else 0
  page_faults := 0
  tlb_hits := 0
  num_free_frames := NUM_FRAMES
  physical_memory := fun _ => 0
  out_of_array := false

/-- One line of output: the three numbers printed at line 143.  The value is
`none` when `physical_address` is outside the array. -/
structure Line where
  logical_address : Int
  physical_address : Int
  value : Option Int
  deriving DecidableEq, Repr

/-- What is left of the addresses file, as the items `fscanf "%d"` meets: a
decimal integer, or text that `%d` cannot match. -/
inductive Token where
  | int (v : Int)
  | other
  deriving DecidableEq, Repr

/-- The call `fscanf(addresses, "%d", &logical_address)`: its return value,
the variable afterwards, and the remaining input.  At the end of the file it
returns `EOF`; on a decimal integer it stores it and returns 1; on other text
it returns 0, stores nothing and leaves the text unread. -/
def fscanf_d (input : List Token) (logical_address : Int) : Int × Int × List Token :=
  match input with
  | [] => (EOF, logical_address, [])
  | .int v :: rest => (1, v, rest)
  | .other :: rest => (0, logical_address, .other :: rest)

/-- The result of running the loop of lines 140-144 for a bounded number of
iterations. -/
inductive LoopResult where
  | finished (stdout : List Line) (s : VM)
  | fatal (stdout : List Line) (f : Fatal)
  | still_running (stdout : List Line) (s : VM)

/-- The loop of lines 140-144, run for at most `fuel` iterations. -/
def main_loop (bs : BackingStore) :
    Nat → List Token → Int → VM → List Line → LoopResult
  | 0, _, _, s, stdout => .still_running stdout s
  | fuel + 1, input, logical_address, s, stdout =>
    match fscanf_d input logical_address with
    | (r, logical_address, input) =>
      if r ≠ EOF then
        match translate_address bs logical_address s with
        | .error f => .fatal stdout f
        | .ok (physical_address, s) =>
          main_loop bs fuel input logical_address s
            (stdout ++ [⟨logical_address, physical_address,
              read_physical_memory s physical_address⟩])
      else .finished stdout s

/-- What a finished run of `main` leaves: the exit status, the per-address
lines, and the two statistics of lines 147-148 when they are printed. -/
structure Exit where
  code : Int
  stdout : List Line
  statistics : Option (Int × Int)
  deriving DecidableEq, Repr

/-- The value of the C macro `EXIT_FAILURE`. -/
abbrev EXIT_FAILURE : Int := 1

/-- The program: `argc`, the two `fopen` results (`none` for `NULL`), and the
indeterminate initial value of the local `logical_address`.  The loop is run
for at most `fuel` iterations; `none` means it has not ended by then. -/
def main (argc : Int) (backing_store : Option BackingStore)
    (addresses : Option (List Token)) (logical_address : Int) (fuel : Nat) : Option Exit :=
  if argc ≠ 3 then some ⟨EXIT_FAILURE, [], none⟩
  else
    match backing_store with
    | none => some ⟨EXIT_FAILURE, [], none⟩
    | some bs =>
      match addresses with
      | none => some ⟨EXIT_FAILURE, [], none⟩
      | some input =>
        match main_loop bs fuel input logical_address init_state [] with
        | .finished stdout s => some ⟨0, stdout, some (s.page_faults, s.tlb_hits)⟩
        | .fatal stdout _ => some ⟨EXIT_FAILURE, stdout, none⟩
        | .still_running _ _ => none

/-- Translating a list of addresses in order: the loop body of lines 141-143
once per address. -/
def translate_all (bs : BackingStore) : List Int → VM → Except Fatal (List Int × VM)
  | [], s => .ok ([], s)
  | a :: rest, s =>
    match translate_address bs a s with
    | .error f => .error f
    | .ok (pa, s1) =>
      match translate_all bs rest s1 with
      | .error f => .error f
      | .ok (pas, s2) => .ok (pa :: pas, s2)

/-- The page numbers of a list of logical addresses, in order. -/
def page_numbers (addrs : List Int) : List Int :=
  addrs.map extract_page_number

/-- The backing store can supply page `page_number`: the seek succeeds and
the read returns `PAGE_SIZE` bytes. -/
def supplies (bs : BackingStore) (page_number : Int) : Prop :=
  bs.seekable (page_number * PAGE_SIZE) = true ∧
    (fread_page bs (page_number * PAGE_SIZE)).length = PAGE_SIZE.toNat

instance (bs : BackingStore) (page_number : Int) : Decidable (supplies bs page_number) := by
  unfold supplies; exact inferInstance

/-- The page numbers for which `handle_page_fault` is called while the
addresses are translated in order from state `s`. -/
def fault_pages (bs : BackingStore) : List Int → VM → List Int
  | [], _ => []
  | a :: rest, s =>
    let here := if path_of s a = .page_fault then [extract_page_number a] else []
    match translate_address bs a s with
    | .error _ => here
    | .ok (_, s1) => here ++ fault_pages bs rest s1

/-- The branches taken while the addresses are translated in order from
state `s`. -/
def paths (bs : BackingStore) : List Int → VM → List Path
  | [], _ => []
  | a :: rest, s =>
    path_of s a ::
      match translate_address bs a s with
      | .error _ => []
      | .ok (_, s1) => paths bs rest s1

/-- The invariant of the globals once the pages of `V` have been translated:
`V` is the set of mapped pages, every mapped frame is above the free count,
the counters agree with `V`, every TLB slot that holds a page agrees with the
page table, and no stamp is ahead of the clock. -/
structure Inv (V : Finset Int) (s : VM) : Prop where
  range : ∀ v, v ∈ V → 0 ≤ v ∧ v < 256
  mapped : ∀ p : Nat, p < PAGE_TABLE_SIZE → (s.page_table p ≠ TLB_MISS ↔ (p : Int) ∈ V)
  frames : ∀ p : Nat, p < PAGE_TABLE_SIZE → s.page_table p ≠ TLB_MISS →
    s.num_free_frames < s.page_table p ∧ s.page_table p ≤ NUM_FRAMES
  faults : s.page_faults = V.card
  free : s.num_free_frames = NUM_FRAMES - s.page_faults
  coherent : ∀ i, i < TLB_SIZE → s.tlb i 0 = TLB_MISS ∨
    (0 ≤ s.tlb i 0 ∧ s.tlb i 0 < 256 ∧ s.page_table (s.tlb i 0).toNat ≠ TLB_MISS ∧
      s.tlb i 1 = s.page_table (s.tlb i 0).toNat)
  stamps : ∀ i, i < TLB_SIZE → s.tlb_last_access i ≤ s.tlb_hits

/-- The globals after a run, whether it returned or exited. -/
def state_of (r : Except Fatal (List Int × VM)) : VM :=
  match r with
  | .ok (_, s) => s
  | .error f => f.state

/-- The physical addresses a run returned. -/
def results_of (r : Except Fatal (List Int × VM)) : List Int :=
  match r with
  | .ok (pas, _) => pas
  | .error _ => []

/-- A backing store of 65536 zero bytes on which every seek succeeds. -/
def zero_store : BackingStore where
  bytes := List.replicate 65536 0
  seekable := fun _ => true

/-- The backing store of the scenario: 65536 zero bytes except 65 at offset 0
and 66 at offset 256. -/
def scenario_store : BackingStore where
  bytes := ((List.replicate 65536 0).set 0 65).set 256 66
  seekable := fun _ => true

/-- A backing store holding page 0 only. -/
def one_page_store : BackingStore where
  bytes := List.replicate 256 0
  seekable := fun _ => true

/-- The output lines of a bounded run of the loop. -/
def LoopResult.stdout : LoopResult → List Line
  | .finished out _ => out
  | .fatal out _ => out
  | .still_running out _ => out

/-- Whether a bounded run of the loop has left the loop. -/
def LoopResult.ended : LoopResult → Bool
  | .finished _ _ => true
  | .fatal _ _ => true
  | .still_running _ _ => false

/-- The invariant of the recency stamps: the clock and the stamps are not
negative, two different slots never share a non-zero stamp, and a slot whose
stamp is 0 still has its initial content. -/
structure StampInv (s : VM) : Prop where
  clock : 0 ≤ s.tlb_hits
  nonneg : ∀ i, i < TLB_SIZE → 0 ≤ s.tlb_last_access i
  distinct : ∀ i j, i < TLB_SIZE → j < TLB_SIZE → i ≠ j → s.tlb_last_access i ≠ 0 →
    s.tlb_last_access i ≠ s.tlb_last_access j
  untouched : ∀ i, i < TLB_SIZE → s.tlb_last_access i = 0 →
    s.tlb i 0 = TLB_MISS ∧ s.tlb i 1 = 0

/-- Two different mapped pages have different frames. -/
def FramesDistinct (s : VM) : Prop :=
  ∀ p q : Nat, p < PAGE_TABLE_SIZE → q < PAGE_TABLE_SIZE → s.page_table p ≠ TLB_MISS →
    s.page_table p = s.page_table q → p = q

/-- The globals after the addresses have been translated in order from the
initialised state. -/
def run_state (bs : BackingStore) (addrs : List Int) : VM :=
  state_of (translate_all bs addrs init_state)

/-- The physical addresses returned while the addresses are translated in
order from the initialised state. -/
def run_results (bs : BackingStore) (addrs : List Int) : List Int :=
  results_of (translate_all bs addrs init_state)

/-- Nine addresses on nine different pages, 0 to 8. -/
def nine_pages : List Int := [0, 256, 512, 768, 1024, 1280, 1536, 1792, 2048]

/-! ## Address decomposition -/

theorem ldiff_255 (m : Nat) : Nat.ldiff 255 m = 255 - m % 256 := by
  apply Nat.eq_of_testBit_eq
  intro i
  have h1 : (255 : Nat) = 2 ^ 8 - 1 := by norm_num
  have h2 : 255 - m % 256 = 2 ^ 8 - (m % 2 ^ 8 + 1) := by norm_num; omega
  rw [Nat.testBit_ldiff, h2, Nat.testBit_two_pow_sub_succ (Nat.mod_lt _ (by norm_num)), h1,
    Nat.testBit_two_pow_sub_one, Nat.testBit_mod_two_pow]
  by_cases h : i < 8 <;> simp [h]

theorem land_255 (x : Int) : Int.land x 255 = x % 256 := by
  cases x with
  | ofNat n =>
    show ((n &&& 255 : Nat) : Int) = _
    have := Nat.and_pow_two_sub_one_eq_mod n 8
    simp at this
    rw [this]; simp
  | negSucc m =>
    show ((Nat.ldiff 255 m : Nat) : Int) = _
    rw [Int.negSucc_emod m (by norm_num), ldiff_255]
    omega

theorem extract_page_number_eq (a : Int) : extract_page_number a = (a / 256) % 256 := by
  unfold extract_page_number
  rw [land_255, Int.shiftRight_eq_div_pow]
  norm_num

theorem extract_offset_eq (a : Int) : extract_offset a = a % 256 := by
  unfold extract_offset
  rw [land_255]

theorem extract_page_number_nonneg (a : Int) : 0 ≤ extract_page_number a := by
  rw [extract_page_number_eq]; omega

theorem extract_page_number_lt (a : Int) : extract_page_number a < 256 := by
  rw [extract_page_number_eq]; omega

theorem extract_page_number_toNat_lt (a : Int) : (extract_page_number a).toNat < 256 := by
  have h0 := extract_page_number_nonneg a
  have h1 := extract_page_number_lt a
  omega

/-! ## The scans -/

theorem tlb_scan_some {tlb : Nat → Nat → Int} {p : Int} {i n k : Nat}
    (h : tlb_scan tlb p i n = some k) :
    i ≤ k ∧ k < i + n ∧ tlb k 0 = p ∧ ∀ j, i ≤ j → j < k → tlb j 0 ≠ p := by
  induction n generalizing i with
  | zero => simp [tlb_scan] at h
  | succ n ih =>
    unfold tlb_scan at h
    by_cases hp : tlb i 0 = p
    · simp [hp] at h
      subst h
      exact ⟨le_refl _, by omega, hp, fun j h1 h2 => by omega⟩
    · simp [hp] at h
      obtain ⟨h1, h2, h3, h4⟩ := ih h
      refine ⟨by omega, by omega, h3, fun j hj1 hj2 => ?_⟩
      by_cases hji : j = i
      · subst hji; exact hp
      · exact h4 j (by omega) hj2

theorem tlb_scan_none {tlb : Nat → Nat → Int} {p : Int} {i n : Nat} :
    tlb_scan tlb p i n = none ↔ ∀ j, i ≤ j → j < i + n → tlb j 0 ≠ p := by
  induction n generalizing i with
  | zero => simp [tlb_scan]; intro j h1 h2; omega
  | succ n ih =>
    unfold tlb_scan
    by_cases hp : tlb i 0 = p
    · simp [hp]
      exact ⟨i, le_refl _, by omega, hp⟩
    · simp only [hp, if_false, ih]
      constructor
      · intro h j h1 h2
        by_cases hji : j = i
        · subst hji; exact hp
        · exact h j (by omega) (by omega)
      · intro h j h1 h2
        exact h j (by omega) (by omega)

theorem tlb_lookup_some {s : VM} {p : Int} {k : Nat} (h : tlb_lookup s p = some k) :
    k < TLB_SIZE ∧ s.tlb k 0 = p ∧ ∀ j, j < k → s.tlb j 0 ≠ p := by
  obtain ⟨_, h2, h3, h4⟩ := tlb_scan_some h
  exact ⟨by omega, h3, fun j hj => h4 j (Nat.zero_le _) hj⟩

theorem tlb_lookup_none {s : VM} {p : Int} :
    tlb_lookup s p = none ↔ ∀ j, j < TLB_SIZE → s.tlb j 0 ≠ p := by
  unfold tlb_lookup
  rw [tlb_scan_none]
  constructor
  · intro h j hj; exact h j (Nat.zero_le _) (by omega)
  · intro h j _ hj; exact h j (by omega)

theorem oldest_scan_spec (la : Nat → Int) (n : Nat) :
    ∀ (i oi : Nat) (oa : Int), oa = la oi → oi < i → (∀ j, j < i → la oi ≤ la j) →
      (∀ j, j < oi → la oi < la j) →
      oldest_scan la i n oi oa < i + n ∧
      (∀ j, j < i + n → la (oldest_scan la i n oi oa) ≤ la j) ∧
      (∀ j, j < oldest_scan la i n oi oa → la (oldest_scan la i n oi oa) < la j) := by
  induction n with
  | zero =>
    intro i oi oa _ h2 h3 h4
    exact ⟨by simpa [oldest_scan] using h2, by simpa [oldest_scan] using h3,
      by simpa [oldest_scan] using h4⟩
  | succ n ih =>
    intro i oi oa h1 h2 h3 h4
    unfold oldest_scan
    by_cases hlt : la i < oa
    · simp only [hlt, if_true]
      have := ih (i + 1) i (la i) rfl (by omega)
        (fun j hj => by
          by_cases hji : j = i
          · subst hji; exact le_refl _
          · have := h3 j (by omega); omega)
        (fun j hj => by have := h3 j hj; omega)
      refine ⟨by omega, fun j hj => this.2.1 j (by omega), this.2.2⟩
    · simp only [hlt, if_false]
      have := ih (i + 1) oi oa h1 (by omega)
        (fun j hj => by
          by_cases hji : j = i
          · subst hji; omega
          · exact h3 j (by omega))
        h4
      refine ⟨by omega, fun j hj => this.2.1 j (by omega), this.2.2⟩

theorem oldest_index_lt (la : Nat → Int) : oldest_index la < TLB_SIZE := by
  have := (oldest_scan_spec la 15 1 0 (la 0) rfl (by omega)
    (fun j hj => by have : j = 0 := by omega
                    subst this; exact le_refl _)
    (fun j hj => by omega)).1
  unfold oldest_index
  simpa using this

theorem oldest_index_le (la : Nat → Int) (j : Nat) (hj : j < TLB_SIZE) :
    la (oldest_index la) ≤ la j := by
  have := (oldest_scan_spec la 15 1 0 (la 0) rfl (by omega)
    (fun j hj => by have : j = 0 := by omega
                    subst this; exact le_refl _)
    (fun j hj => by omega)).2.1 j (by simpa using hj)
  unfold oldest_index
  simpa using this

theorem oldest_index_first (la : Nat → Int) (j : Nat) (hj : j < oldest_index la) :
    la (oldest_index la) < la j := by
  have := (oldest_scan_spec la 15 1 0 (la 0) rfl (by omega)
    (fun j hj => by have : j = 0 := by omega
                    subst this; exact le_refl _)
    (fun j hj => by omega)).2.2 j (by simpa [oldest_index] using hj)
  unfold oldest_index
  simpa using this

/-! ## The three paths of `translate_address` -/

theorem handle_page_fault_ok_iff (bs : BackingStore) (p : Int) (s : VM) :
    (∃ s1, handle_page_fault bs p s = .ok s1) ↔ supplies bs p := by
  unfold handle_page_fault supplies
  by_cases h1 : bs.seekable (p * PAGE_SIZE) = false
  · simp [h1]
  · by_cases h2 : (fread_page bs (p * PAGE_SIZE)).length = PAGE_SIZE.toNat
    · simp [h1, h2]
    · simp [h1, h2]

theorem handle_page_fault_fields {bs : BackingStore} {p : Int} {s s1 : VM}
    (h : handle_page_fault bs p s = .ok s1) :
    s1.page_table = upd s.page_table p.toNat s.num_free_frames ∧
    s1.tlb = upd2 (upd2 s.tlb (oldest_index s.tlb_last_access) 0 p)
      (oldest_index s.tlb_last_access) 1 s.num_free_frames ∧
    s1.tlb_last_access =
      upd s.tlb_last_access (oldest_index s.tlb_last_access) (s.tlb_hits + 1) ∧
    s1.page_faults = s.page_faults + 1 ∧
    s1.tlb_hits = s.tlb_hits + 1 ∧
    s1.num_free_frames = s.num_free_frames - 1 ∧
    s1.physical_memory = store_bytes s.physical_memory (s.num_free_frames * FRAME_SIZE)
      (fread_page bs (p * PAGE_SIZE)) ∧
    s1.free_frame_list = s.free_frame_list := by
  unfold handle_page_fault at h
  by_cases h1 : bs.seekable (p * PAGE_SIZE) = false
  · simp [h1] at h
  · by_cases h2 : (fread_page bs (p * PAGE_SIZE)).length = PAGE_SIZE.toNat
    · simp only [h1, h2, if_false, ne_eq, not_true_eq_false] at h
      injection h with h
      subst h
      exact ⟨rfl, rfl, rfl, rfl, rfl, rfl, rfl, rfl⟩
    · simp [h1, h2] at h

theorem translate_address_cases {bs : BackingStore} {a : Int} {s : VM} {pa : Int} {s' : VM}
    (h : translate_address bs a s = .ok (pa, s')) :
    (∃ i, tlb_lookup s (extract_page_number a) = some i ∧
        (pa, s') = tlb_hit s i (extract_offset a)) ∨
    (tlb_lookup s (extract_page_number a) = none ∧
        s.page_table (extract_page_number a).toNat ≠ TLB_MISS ∧
        (pa, s') = tlb_update s (extract_page_number a) (extract_offset a)) ∨
    (tlb_lookup s (extract_page_number a) = none ∧
        s.page_table (extract_page_number a).toNat = TLB_MISS ∧
        ∃ s1, handle_page_fault bs (extract_page_number a) s = .ok s1 ∧
          (pa, s') = tlb_update s1 (extract_page_number a) (extract_offset a)) := by
  unfold translate_address at h
  cases hl : tlb_lookup s (extract_page_number a) with
  | some i =>
    simp only [hl] at h
    injection h with h
    exact Or.inl ⟨i, rfl, h.symm⟩
  | none =>
    simp only [hl] at h
    by_cases hp : s.page_table (extract_page_number a).toNat = TLB_MISS
    · simp only [hp, if_true] at h
      cases hf : handle_page_fault bs (extract_page_number a) s with
      | error f => simp [hf] at h
      | ok s1 =>
        simp only [hf] at h
        injection h with h
        exact Or.inr (Or.inr ⟨rfl, hp, s1, rfl, h.symm⟩)
    · simp only [hp, if_false] at h
      injection h with h
      exact Or.inr (Or.inl ⟨rfl, hp, h.symm⟩)

theorem translate_address_error_iff (bs : BackingStore) (a : Int) (s : VM) :
    (∃ f, translate_address bs a s = .error f) ↔
      (path_of s a = .page_fault ∧ ¬ supplies bs (extract_page_number a)) := by
  rw [← handle_page_fault_ok_iff bs _ s]
  unfold translate_address path_of
  cases hl : tlb_lookup s (extract_page_number a) with
  | some i => simp [hl]
  | none =>
    by_cases hp : s.page_table (extract_page_number a).toNat = TLB_MISS
    · cases hf : handle_page_fault bs (extract_page_number a) s with
      | error f => simp [hl, hp, hf]
      | ok s1 => simp [hl, hp, hf]
    · simp [hl, hp]

theorem translate_address_ok_of_supplies {bs : BackingStore} {a : Int} (s : VM)
    (h : supplies bs (extract_page_number a)) :
    ∃ pa s', translate_address bs a s = .ok (pa, s') := by
  cases hr : translate_address bs a s with
  | error f =>
    have := (translate_address_error_iff bs a s).1 ⟨f, hr⟩
    exact absurd h this.2
  | ok r => exact ⟨r.1, r.2, rfl⟩

/-! ## The invariant of reachable states -/

theorem upd_same {α : Type} (t : Nat → α) (i : Nat) (v : α) : upd t i v i = v := by
  simp [upd]

theorem upd_other {α : Type} (t : Nat → α) {i j : Nat} (v : α) (h : j ≠ i) :
    upd t i v j = t j := by
  simp [upd, h]

theorem upd2_same_row (t : Nat → Nat → Int) (i c : Nat) (v : Int) (d : Nat) :
    upd2 t i c v i d = if d = c then v else t i d := by
  simp [upd2, upd]

theorem upd2_other_row (t : Nat → Nat → Int) {i j : Nat} (c : Nat) (v : Int) (d : Nat)
    (h : j ≠ i) : upd2 t i c v j d = t j d := by
  simp [upd2, upd, h]

theorem card_lt_of_not_mem {V : Finset Int} (hV : ∀ v, v ∈ V → 0 ≤ v ∧ v < 256) {p : Int}
    (hp0 : 0 ≤ p) (hp1 : p < 256) (hp : p ∉ V) : V.card < 256 := by
  have hsub : V ⊆ (Finset.Ico (0 : Int) 256).erase p := by
    intro v hv
    rw [Finset.mem_erase, Finset.mem_Ico]
    exact ⟨fun h => hp (h ▸ hv), hV v hv⟩
  have hc := Finset.card_le_card hsub
  rw [Finset.card_erase_of_mem (by rw [Finset.mem_Ico]; exact ⟨hp0, hp1⟩)] at hc
  simp at hc
  omega

theorem inv_init : Inv ∅ init_state := by
  refine ⟨by simp, ?_, ?_, by simp [init_state], by simp [init_state], ?_, by simp [init_state]⟩
  · intro p hp
    simp [init_state, hp]
  · intro p hp
    simp [init_state, hp]
  · intro i hi
    left
    simp [init_state, hi]

theorem inv_tlb_hit {V : Finset Int} {s : VM} (hinv : Inv V s) (i : Nat) (offset : Int) :
    Inv V (tlb_hit s i offset).2 := by
  refine ⟨hinv.range, hinv.mapped, hinv.frames, hinv.faults, hinv.free, hinv.coherent, ?_⟩
  intro j hj
  show upd s.tlb_last_access i (s.tlb_hits + 1) j ≤ s.tlb_hits + 1
  have := hinv.stamps j hj
  by_cases hji : j = i
  · subst hji; rw [upd_same]
  · rw [upd_other _ _ hji]; omega

theorem inv_tlb_update {V : Finset Int} {s : VM} (hinv : Inv V s) {p : Int} (hp : p ∈ V)
    (offset : Int) : Inv V (tlb_update s p offset).2 := by
  obtain ⟨hp0, hp1⟩ := hinv.range p hp
  have hmapped : s.page_table p.toNat ≠ TLB_MISS := by
    rw [hinv.mapped p.toNat (by show p.toNat < 256; omega)]
    rwa [Int.toNat_of_nonneg hp0]
  refine ⟨hinv.range, hinv.mapped, hinv.frames, hinv.faults, hinv.free, ?_, ?_⟩
  · intro j hj
    show upd2 (upd2 s.tlb _ 0 p) _ 1 (s.page_table p.toNat) j 0 = TLB_MISS ∨
      (0 ≤ upd2 (upd2 s.tlb _ 0 p) _ 1 (s.page_table p.toNat) j 0 ∧
        upd2 (upd2 s.tlb _ 0 p) _ 1 (s.page_table p.toNat) j 0 < 256 ∧
        s.page_table (upd2 (upd2 s.tlb _ 0 p) _ 1 (s.page_table p.toNat) j 0).toNat ≠ TLB_MISS ∧
        upd2 (upd2 s.tlb _ 0 p) _ 1 (s.page_table p.toNat) j 1 =
          s.page_table (upd2 (upd2 s.tlb _ 0 p) _ 1 (s.page_table p.toNat) j 0).toNat)
    by_cases hji : j = oldest_index s.tlb_last_access
    · subst hji
      right
      simp only [upd2_same_row]
      simp
      exact ⟨hp0, hp1, hmapped⟩
    · simp only [upd2_other_row _ _ _ _ hji]
      exact hinv.coherent j hj
  · intro j hj
    show upd s.tlb_last_access _ (s.tlb_hits + 1) j ≤ s.tlb_hits + 1
    have := hinv.stamps j hj
    by_cases hji : j = oldest_index s.tlb_last_access
    · subst hji; rw [upd_same]
    · rw [upd_other _ _ hji]; omega

theorem inv_handle_page_fault {V : Finset Int} {s s1 : VM} {bs : BackingStore} {p : Int}
    (hinv : Inv V s) (hp0 : 0 ≤ p) (hp1 : p < 256) (hun : s.page_table p.toNat = TLB_MISS)
    (h : handle_page_fault bs p s = .ok s1) : Inv (insert p V) s1 := by
  obtain ⟨e1, e2, e3, e4, e5, e6, _, _⟩ := handle_page_fault_fields h
  have hpV : p ∉ V := by
    intro hmem
    have := (hinv.mapped p.toNat (by show p.toNat < 256; omega)).2 (by rwa [Int.toNat_of_nonneg hp0])
    exact this hun
  have hcard := card_lt_of_not_mem hinv.range hp0 hp1 hpV
  have hfree : 1 ≤ s.num_free_frames := by
    have h1 : s.num_free_frames = 256 - s.page_faults := hinv.free
    have h2 := hinv.faults
    omega
  refine ⟨?_, ?_, ?_, ?_, ?_, ?_, ?_⟩
  · intro v hv
    rw [Finset.mem_insert] at hv
    rcases hv with hv | hv
    · subst hv; exact ⟨hp0, hp1⟩
    · exact hinv.range v hv
  · intro q hq
    rw [e1, Finset.mem_insert]
    by_cases hqp : q = p.toNat
    · subst hqp
      rw [upd_same]
      constructor
      · intro _; left; omega
      · intro _; show s.num_free_frames ≠ -1; omega
    · rw [upd_other _ _ hqp, hinv.mapped q hq]
      constructor
      · intro hm; exact Or.inr hm
      · intro hm
        rcases hm with hm | hm
        · exact absurd (by omega : q = p.toNat) hqp
        · exact hm
  · intro q hq
    rw [e1, e6]
    by_cases hqp : q = p.toNat
    · subst hqp
      rw [upd_same]
      intro _
      have h1 : s.num_free_frames = 256 - s.page_faults := hinv.free
      have h2 := hinv.faults
      show s.num_free_frames - 1 < s.num_free_frames ∧ s.num_free_frames ≤ 256
      constructor <;> omega
    · rw [upd_other _ _ hqp]
      intro hm
      have := hinv.frames q hq hm
      exact ⟨by omega, this.2⟩
  · rw [e4, hinv.faults, Finset.card_insert_of_not_mem hpV]
    push_cast; ring
  · rw [e6, e4, hinv.free]; ring
  · intro j hj
    rw [e1, e2]
    by_cases hji : j = oldest_index s.tlb_last_access
    · subst hji
      right
      simp only [upd2_same_row]
      simp
      refine ⟨hp0, hp1, ?_, ?_⟩
      · rw [upd_same]; show s.num_free_frames ≠ -1; omega
      · rw [upd_same]
    · simp only [upd2_other_row _ _ _ _ hji]
      rcases hinv.coherent j hj with hc | ⟨c0, c1, c2, c3⟩
      · exact Or.inl hc
      · right
        have hne : (s.tlb j 0).toNat ≠ p.toNat := by
          intro heq
          rw [heq] at c2
          exact c2 hun
        rw [upd_other _ _ hne]
        exact ⟨c0, c1, c2, c3⟩
  · intro j hj
    rw [e3, e5]
    have := hinv.stamps j hj
    by_cases hji : j = oldest_index s.tlb_last_access
    · subst hji; rw [upd_same]
    · rw [upd_other _ _ hji]; omega

theorem inv_step {V : Finset Int} {s s' : VM} {bs : BackingStore} {a pa : Int}
    (hinv : Inv V s) (h : translate_address bs a s = .ok (pa, s')) :
    Inv (insert (extract_page_number a) V) s' := by
  have hp0 := extract_page_number_nonneg a
  have hp1 := extract_page_number_lt a
  have hmem : s.page_table (extract_page_number a).toNat ≠ TLB_MISS →
      extract_page_number a ∈ V := by
    intro hm
    have := (hinv.mapped _ (extract_page_number_toNat_lt a)).1 hm
    rwa [Int.toNat_of_nonneg hp0] at this
  rcases translate_address_cases h with ⟨i, hl, he⟩ | ⟨_, hm, he⟩ | ⟨_, hun, s1, hf, he⟩
  · obtain ⟨hi, htlb, _⟩ := tlb_lookup_some hl
    have hV : extract_page_number a ∈ V := by
      rcases hinv.coherent i hi with hc | ⟨_, _, c2, _⟩
      · rw [htlb] at hc
        have : extract_page_number a = -1 := hc
        omega
      · rw [htlb] at c2
        exact hmem c2
    rw [Finset.insert_eq_of_mem hV]
    have : s' = (tlb_hit s i (extract_offset a)).2 := congrArg Prod.snd he
    rw [this]
    exact inv_tlb_hit hinv i _
  · rw [Finset.insert_eq_of_mem (hmem hm)]
    have : s' = (tlb_update s (extract_page_number a) (extract_offset a)).2 :=
      congrArg Prod.snd he
    rw [this]
    exact inv_tlb_update hinv (hmem hm) _
  · have h1 := inv_handle_page_fault hinv hp0 hp1 hun hf
    have : s' = (tlb_update s1 (extract_page_number a) (extract_offset a)).2 :=
      congrArg Prod.snd he
    rw [this]
    exact inv_tlb_update h1 (Finset.mem_insert_self _ _) _

theorem translate_all_cons_ok {bs : BackingStore} {a : Int} {rest : List Int} {s s' : VM}
    {pas : List Int} (h : translate_all bs (a :: rest) s = .ok (pas, s')) :
    ∃ pa s1 pas', translate_address bs a s = .ok (pa, s1) ∧
      translate_all bs rest s1 = .ok (pas', s') ∧ pas = pa :: pas' := by
  unfold translate_all at h
  cases h1 : translate_address bs a s with
  | error f => simp [h1] at h
  | ok r =>
    obtain ⟨pa, s1⟩ := r
    simp only [h1] at h
    cases h2 : translate_all bs rest s1 with
    | error f => simp [h2] at h
    | ok r2 =>
      obtain ⟨pas', s2⟩ := r2
      simp only [h2] at h
      injection h with h
      injection h with h3 h4
      subst h4
      exact ⟨pa, s1, pas', rfl, h2, h3.symm⟩

theorem inv_translate_all {bs : BackingStore} (addrs : List Int) :
    ∀ {V : Finset Int} {s s' : VM} {pas : List Int}, Inv V s →
      translate_all bs addrs s = .ok (pas, s') →
      Inv (V ∪ (page_numbers addrs).toFinset) s' := by
  induction addrs with
  | nil =>
    intro V s s' pas hinv h
    simp only [translate_all] at h
    injection h with h
    injection h with _ h
    subst h
    simpa [page_numbers] using hinv
  | cons a rest ih =>
    intro V s s' pas hinv h
    obtain ⟨pa, s1, pas', h1, h2, _⟩ := translate_all_cons_ok h
    have := ih (inv_step hinv h1) h2
    have heq : V ∪ (page_numbers (a :: rest)).toFinset =
        insert (extract_page_number a) V ∪ (page_numbers rest).toFinset := by
      ext x
      simp [page_numbers]
    rw [heq]
    exact this

theorem inv_reachable {bs : BackingStore} {addrs pas : List Int} {s : VM}
    (h : translate_all bs addrs init_state = .ok (pas, s)) :
    Inv (page_numbers addrs).toFinset s := by
  have := inv_translate_all addrs inv_init h
  simpa using this

theorem translate_all_total {bs : BackingStore}
    (hbs : ∀ p : Int, 0 ≤ p → p < 256 → supplies bs p) (addrs : List Int) :
    ∀ s : VM, ∃ pas s', translate_all bs addrs s = .ok (pas, s') := by
  induction addrs with
  | nil => intro s; exact ⟨[], s, rfl⟩
  | cons a rest ih =>
    intro s
    obtain ⟨pa, s1, h1⟩ := translate_address_ok_of_supplies s
      (hbs _ (extract_page_number_nonneg a) (extract_page_number_lt a))
    obtain ⟨pas, s', h2⟩ := ih s1
    exact ⟨pa :: pas, s', by simp [translate_all, h1, h2]⟩

theorem path_of_page_fault {s : VM} {a : Int} (h : path_of s a = .page_fault) :
    tlb_lookup s (extract_page_number a) = none ∧
      s.page_table (extract_page_number a).toNat = TLB_MISS := by
  unfold path_of at h
  cases hl : tlb_lookup s (extract_page_number a) with
  | some i => simp [hl] at h
  | none =>
    by_cases hp : s.page_table (extract_page_number a).toNat = TLB_MISS
    · exact ⟨rfl, hp⟩
    · simp [hl, hp] at h

theorem fault_pages_fresh {bs : BackingStore} (addrs : List Int) :
    ∀ {V : Finset Int} {s : VM}, Inv V s →
      (∀ q, q ∈ fault_pages bs addrs s → q ∉ V) ∧ (fault_pages bs addrs s).Nodup := by
  induction addrs with
  | nil => intro V s _; simp [fault_pages]
  | cons a rest ih =>
    intro V s hinv
    have hhere : path_of s a = .page_fault → extract_page_number a ∉ V := by
      intro hpf hmem
      have hun := (path_of_page_fault hpf).2
      have := (hinv.mapped _ (extract_page_number_toNat_lt a)).2
        (by rwa [Int.toNat_of_nonneg (extract_page_number_nonneg a)])
      exact this hun
    unfold fault_pages
    cases h1 : translate_address bs a s with
    | error f =>
      by_cases hpf : path_of s a = .page_fault
      · simp [hpf, hhere hpf]
      · simp [hpf]
    | ok r =>
      obtain ⟨pa, s1⟩ := r
      obtain ⟨ih1, ih2⟩ := ih (inv_step hinv h1)
      have ih1' : ∀ q, q ∈ fault_pages bs rest s1 → q ≠ extract_page_number a ∧ q ∉ V := by
        intro q hq
        have := ih1 q hq
        rw [Finset.mem_insert] at this
        exact ⟨fun h => this (Or.inl h), fun h => this (Or.inr h)⟩
      by_cases hpf : path_of s a = .page_fault
      · simp only [hpf, if_true, List.singleton_append, List.mem_cons, List.nodup_cons]
        refine ⟨?_, ?_, ih2⟩
        · intro q hq
          rcases hq with hq | hq
          · rw [hq]; exact hhere hpf
          · exact (ih1' q hq).2
        · intro hmem
          exact (ih1' _ hmem).1 rfl
      · simp only [hpf, if_false, List.nil_append]
        exact ⟨fun q hq => (ih1' q hq).2, ih2⟩

/-! ## Stores used as concrete inputs -/

theorem supplies_of_length {bs : BackingStore} {p : Int} (hp0 : 0 ≤ p)
    (hseek : bs.seekable (p * PAGE_SIZE) = true)
    (hlen : (p * 256 + 256).toNat ≤ bs.bytes.length) : supplies bs p := by
  refine ⟨hseek, ?_⟩
  unfold fread_page
  rw [List.length_take, List.length_drop]
  show min (256 : Int).toNat (bs.bytes.length - (p * 256).toNat) = (256 : Int).toNat
  have : (256 : Int).toNat = 256 := rfl
  rw [this]
  omega

theorem zero_store_supplies (p : Int) (hp0 : 0 ≤ p) (hp1 : p < 256) : supplies zero_store p :=
  supplies_of_length hp0 rfl (by
    show (p * 256 + 256).toNat ≤ (List.replicate 65536 0).length
    rw [List.length_replicate]; omega)

theorem scenario_store_supplies (p : Int) (hp0 : 0 ≤ p) (hp1 : p < 256) :
    supplies scenario_store p :=
  supplies_of_length hp0 rfl (by
    show (p * 256 + 256).toNat ≤ (((List.replicate 65536 0).set 0 65).set 256 66).length
    rw [List.length_set, List.length_set, List.length_replicate]; omega)

/-! ## C7 -/

/-- C7. Address decomposition: for a non-negative address `a`, the page number
is `(a / 256) mod 256` and the offset is `a mod 256`, both lie in `0..255`, and
for `a < 65536` the pair recomposes to `a`. -/
theorem address_decomposition (a : Int) (ha : 0 ≤ a) :
    extract_page_number a = (a / 256) % 256 ∧
    extract_offset a = a % 256 ∧
    (0 ≤ extract_page_number a ∧ extract_page_number a ≤ 255) ∧
    (0 ≤ extract_offset a ∧ extract_offset a ≤ 255) ∧
    (a < 65536 → extract_page_number a * 256 + extract_offset a = a) := by
  rw [extract_page_number_eq, extract_offset_eq]
  refine ⟨rfl, rfl, by omega, by omega, ?_⟩
  intro h
  omega

theorem address_decomposition_witness :
    (0 : Int) ≤ 43981 ∧
    (extract_page_number 43981 = (43981 / 256) % 256 ∧
    extract_offset 43981 = 43981 % 256 ∧
    (0 ≤ extract_page_number 43981 ∧ extract_page_number 43981 ≤ 255) ∧
    (0 ≤ extract_offset 43981 ∧ extract_offset 43981 ≤ 255) ∧
    ((43981 : Int) < 65536 → extract_page_number 43981 * 256 + extract_offset 43981 = 43981)) :=
  ⟨by decide, address_decomposition 43981 (by decide)⟩

/-! ## The returned address, on the continuation -/

/-- Continuation lemma. In every state reached from the initialised state by a sequence of
translations, for every logical address `a` with `0 ≤ a < 65536`, a call of
`translate_address` that returns, returns `page_table'[p] * 256 + a mod 256`
with `p = (a / 256) mod 256` and `page_table'` the page table after the call;
it returns whenever the backing store can supply page `p`, and on each of the
three paths. -/
theorem translate_address_formula (bs : BackingStore) (addrs pas : List Int) (s : VM) (a : Int)
    (hreach : translate_all bs addrs init_state = .ok (pas, s))
    (_ha0 : 0 ≤ a) (_ha1 : a < 65536) :
    (∀ pa s', translate_address bs a s = .ok (pa, s') →
      pa = s'.page_table ((a / 256) % 256).toNat * 256 + a % 256) ∧
    (supplies bs ((a / 256) % 256) → ∃ pa s', translate_address bs a s = .ok (pa, s')) ∧
    (path_of s a ≠ .page_fault → ∃ pa s', translate_address bs a s = .ok (pa, s')) := by
  have hinv := inv_reachable hreach
  refine ⟨?_, ?_, ?_⟩
  · intro pa s' h
    rw [← extract_page_number_eq, ← extract_offset_eq]
    have hp0 := extract_page_number_nonneg a
    rcases translate_address_cases h with ⟨i, hl, he⟩ | ⟨_, _, he⟩ | ⟨_, _, s1, _, he⟩
    · obtain ⟨hi, htlb, _⟩ := tlb_lookup_some hl
      have e1 : pa = s.tlb i 1 * PAGE_SIZE + extract_offset a := congrArg Prod.fst he
      have e2 : s'.page_table = s.page_table := by
        have : s' = (tlb_hit s i (extract_offset a)).2 := congrArg Prod.snd he
        rw [this]; rfl
      rcases hinv.coherent i hi with hc | ⟨_, _, _, c3⟩
      · rw [htlb] at hc
        have : extract_page_number a = -1 := hc
        omega
      · rw [e1, e2, c3, htlb]
    · have e1 : pa = s.page_table (extract_page_number a).toNat * PAGE_SIZE
          + extract_offset a := congrArg Prod.fst he
      have e2 : s'.page_table = s.page_table := by
        have : s' = (tlb_update s (extract_page_number a) (extract_offset a)).2 :=
          congrArg Prod.snd he
        rw [this]; rfl
      rw [e1, e2]
    · have e1 : pa = s1.page_table (extract_page_number a).toNat * PAGE_SIZE
          + extract_offset a := congrArg Prod.fst he
      have e2 : s'.page_table = s1.page_table := by
        have : s' = (tlb_update s1 (extract_page_number a) (extract_offset a)).2 :=
          congrArg Prod.snd he
        rw [this]; rfl
      rw [e1, e2]
  · intro hs
    rw [← extract_page_number_eq] at hs
    exact translate_address_ok_of_supplies s hs
  · intro hpath
    cases hr : translate_address bs a s with
    | error f => exact absurd ((translate_address_error_iff bs a s).1 ⟨f, hr⟩).1 hpath
    | ok r => exact ⟨r.1, r.2, rfl⟩

set_option maxRecDepth 100000 in
theorem translate_address_formula_witness :
    translate_all one_page_store [0] init_state =
      .ok (results_of (translate_all one_page_store [0] init_state),
        state_of (translate_all one_page_store [0] init_state)) ∧
    (0 : Int) ≤ 5 ∧ (5 : Int) < 65536 ∧
    ((∀ pa s', translate_address one_page_store 5
        (state_of (translate_all one_page_store [0] init_state)) = .ok (pa, s') →
      pa = s'.page_table (((5 : Int) / 256) % 256).toNat * 256 + 5 % 256) ∧
    (supplies one_page_store (((5 : Int) / 256) % 256) → ∃ pa s', translate_address one_page_store 5
        (state_of (translate_all one_page_store [0] init_state)) = .ok (pa, s')) ∧
    (path_of (state_of (translate_all one_page_store [0] init_state)) 5 ≠ .page_fault →
      ∃ pa s', translate_address one_page_store 5
        (state_of (translate_all one_page_store [0] init_state)) = .ok (pa, s'))) :=
  ⟨rfl, by decide, by decide,
    translate_address_formula one_page_store [0] _ _ 5 rfl (by decide) (by decide)⟩

/-! ## Faults per page, on the continuation -/

/-- Continuation lemma. With a backing store that can supply every
page, translating any sequence of addresses from the initialised state
succeeds, `handle_page_fault` is called at most once for each page number, and
the final `page_faults` is the number of distinct page numbers of the
sequence. -/
theorem single_fault_per_page (bs : BackingStore) (addrs : List Int)
    (hbs : ∀ p : Int, 0 ≤ p → p < 256 → supplies bs p) :
    ∃ pas s, translate_all bs addrs init_state = .ok (pas, s) ∧
      (∀ p, (fault_pages bs addrs init_state).count p ≤ 1) ∧
      s.page_faults = ((page_numbers addrs).dedup.length : Int) := by
  obtain ⟨pas, s, h⟩ := translate_all_total hbs addrs init_state
  refine ⟨pas, s, h, ?_, ?_⟩
  · intro p
    exact List.nodup_iff_count_le_one.1 (fault_pages_fresh addrs inv_init).2 p
  · rw [(inv_reachable h).faults, List.card_toFinset]

theorem single_fault_per_page_witness :
    (∀ p : Int, 0 ≤ p → p < 256 → supplies scenario_store p) ∧
    ∃ pas s, translate_all scenario_store [0, 0, 256] init_state = .ok (pas, s) ∧
      (∀ p, (fault_pages scenario_store [0, 0, 256] init_state).count p ≤ 1) ∧
      s.page_faults = ((page_numbers [0, 0, 256]).dedup.length : Int) :=
  ⟨scenario_store_supplies, single_fault_per_page scenario_store [0, 0, 256]
    scenario_store_supplies⟩

/-! ## Page-table entries, on the continuation -/

theorem translate_address_page_table {bs : BackingStore} {a pa : Int} {s s' : VM} {p : Nat}
    (hmapped : s.page_table p ≠ TLB_MISS) (h : translate_address bs a s = .ok (pa, s')) :
    s'.page_table p = s.page_table p := by
  rcases translate_address_cases h with ⟨i, _, he⟩ | ⟨_, _, he⟩ | ⟨_, hun, s1, hf, he⟩
  · have : s' = (tlb_hit s i (extract_offset a)).2 := congrArg Prod.snd he
    rw [this]; rfl
  · have : s' = (tlb_update s (extract_page_number a) (extract_offset a)).2 :=
      congrArg Prod.snd he
    rw [this]; rfl
  · have : s' = (tlb_update s1 (extract_page_number a) (extract_offset a)).2 :=
      congrArg Prod.snd he
    rw [this]
    show s1.page_table p = s.page_table p
    rw [(handle_page_fault_fields hf).1]
    have hne : p ≠ (extract_page_number a).toNat := by
      intro heq
      rw [heq] at hmapped
      exact hmapped hun
    rw [upd_other _ _ hne]

theorem translate_all_page_table {bs : BackingStore} (addrs : List Int) :
    ∀ {s s' : VM} {pas : List Int} {p : Nat}, s.page_table p ≠ TLB_MISS →
      translate_all bs addrs s = .ok (pas, s') → s'.page_table p = s.page_table p := by
  induction addrs with
  | nil =>
    intro s s' pas p _ h
    simp only [translate_all] at h
    injection h with h
    injection h with _ h
    rw [h]
  | cons a rest ih =>
    intro s s' pas p hm h
    obtain ⟨pa, s1, pas', h1, h2, _⟩ := translate_all_cons_ok h
    have e1 := translate_address_page_table hm h1
    have e2 := ih (by rw [e1]; exact hm) h2
    rw [e2, e1]

/-- Continuation lemma. In a run from the initialised state, the entry
of every page translated so far holds a value other than the sentinel -1, and
an entry that holds such a value is left unchanged by every later
translation. -/
theorem page_table_permanence (bs : BackingStore) (before later : List Int)
    (pas1 pas2 : List Int) (s s' : VM) (p : Nat) (hp : p < PAGE_TABLE_SIZE)
    (hrun1 : translate_all bs before init_state = .ok (pas1, s))
    (hrun2 : translate_all bs later s = .ok (pas2, s')) :
    ((p : Int) ∈ page_numbers before → s.page_table p ≠ TLB_MISS) ∧
    (s.page_table p ≠ TLB_MISS →
      s'.page_table p = s.page_table p ∧ s'.page_table p ≠ TLB_MISS) := by
  constructor
  · intro hmem
    rw [(inv_reachable hrun1).mapped p hp]
    simpa using hmem
  · intro hm
    have := translate_all_page_table later hm hrun2
    exact ⟨this, by rw [this]; exact hm⟩

set_option maxRecDepth 100000 in
theorem page_table_permanence_witness :
    (1 : Nat) < PAGE_TABLE_SIZE ∧
    translate_all scenario_store [256] init_state =
      .ok (results_of (translate_all scenario_store [256] init_state),
        state_of (translate_all scenario_store [256] init_state)) ∧
    translate_all scenario_store [0, 300, 512]
        (state_of (translate_all scenario_store [256] init_state)) =
      .ok ((results_of (translate_all scenario_store [256, 0, 300, 512] init_state)).tail,
        state_of (translate_all scenario_store [256, 0, 300, 512] init_state)) ∧
    ((((1 : Nat) : Int) ∈ page_numbers [256] →
      (state_of (translate_all scenario_store [256] init_state)).page_table 1 ≠ TLB_MISS) ∧
    ((state_of (translate_all scenario_store [256] init_state)).page_table 1 ≠ TLB_MISS →
      (state_of (translate_all scenario_store [256, 0, 300, 512] init_state)).page_table 1 =
        (state_of (translate_all scenario_store [256] init_state)).page_table 1 ∧
      (state_of (translate_all scenario_store [256, 0, 300, 512] init_state)).page_table 1
        ≠ TLB_MISS)) :=
  ⟨by decide, rfl, rfl,
    page_table_permanence scenario_store [256] [0, 300, 512] _ _ _ _ 1 (by decide) rfl rfl⟩

/-! ## C2, C6 : the first frame -/

set_option maxRecDepth 100000 in
/-- C2. Round trip, at the first translation of a run: the backing store has
65536 bytes and holds 65 at offset 0, the translation of address 0 returns
65536, and the 65536-byte physical memory has no byte at that address. -/
theorem round_trip_first_page :
    scenario_store.bytes.length = 65536 ∧
    to_char (scenario_store.bytes.getD 0 0) = 65 ∧
    results_of (translate_all scenario_store [0] init_state) = [65536] ∧
    read_physical_memory (state_of (translate_all scenario_store [0] init_state)) 65536
      = none := by
  refine ⟨?_, by decide, by decide, by decide⟩
  show (((List.replicate 65536 0).set 0 65).set 256 66).length = 65536
  rw [List.length_set, List.length_set, List.length_replicate]

set_option maxRecDepth 100000 in
/-- C6. Frame range, at the first fault of a run: the frame assigned to page 0
is 256, which is not in `0..255`; the page is loaded at offset 65536, past the
last byte of physical memory, and the physical address returned for address 0
is 65536, not 0. -/
theorem first_frame_out_of_range :
    path_of init_state 0 = .page_fault ∧
    (state_of (translate_all zero_store [0] init_state)).page_table 0 = 256 ∧
    init_state.num_free_frames * FRAME_SIZE = 65536 ∧
    in_physical_memory 65536 = false ∧
    results_of (translate_all zero_store [0] init_state) = [65536] := by
  decide

/-! ## C4 : the counter printed as the number of TLB hits -/

set_option maxRecDepth 100000 in
/-- C4. For the address sequence 0, 0, 256 exactly one translation takes the
TLB-hit path and the final counters are `page_faults = 2` and `tlb_hits = 5`:
the counter is also advanced on every miss and on every fault. -/
theorem tlb_hits_scenario :
    paths scenario_store [0, 0, 256] init_state = [.page_fault, .tlb_hit, .page_fault] ∧
    (state_of (translate_all scenario_store [0, 0, 256] init_state)).page_faults = 2 ∧
    (state_of (translate_all scenario_store [0, 0, 256] init_state)).tlb_hits = 5 := by
  decide

/-! ## C5 : eviction after eight other pages -/

set_option maxRecDepth 100000 in
/-- C5. After page 0 is translated, eight other distinct pages are translated
and then page 0 again: this last translation is not resolved by the TLB scan
but takes the TLB-miss path with a mapped page, because each of the eight
faults filled two TLB slots. -/
theorem tlb_miss_after_eight_pages :
    (page_numbers [256, 512, 768, 1024, 1280, 1536, 1792, 2048]).dedup.length = 8 ∧
    paths zero_store [0, 256, 512, 768, 1024, 1280, 1536, 1792, 2048, 0] init_state =
      [.page_fault, .page_fault, .page_fault, .page_fault, .page_fault, .page_fault,
        .page_fault, .page_fault, .page_fault, .table_hit] := by
  decide

/-! ## C9 : failure of the backing store -/

theorem main_loop_stale (bs : BackingStore) (fuel : Nat) :
    ∀ (s : VM) (out : List Line) (i : Nat), tlb_lookup s 0 = some i →
      (∀ l, l ∈ out → l.logical_address = 10) →
      (main_loop bs fuel [.other] 10 s out).ended = false ∧
      (main_loop bs fuel [.other] 10 s out).stdout.length = out.length + fuel ∧
      (∀ l, l ∈ (main_loop bs fuel [.other] 10 s out).stdout → l.logical_address = 10) := by
  induction fuel with
  | zero =>
    intro s out i _ hout
    exact ⟨rfl, rfl, hout⟩
  | succ fuel ih =>
    intro s out i hl hout
    have hpage : extract_page_number 10 = 0 := by decide
    have htr : translate_address bs 10 s = .ok (tlb_hit s i (extract_offset 10)) := by
      unfold translate_address
      simp only [hpage, hl]
    have hstep : main_loop bs (fuel + 1) [.other] 10 s out =
        main_loop bs fuel [.other] 10 (tlb_hit s i (extract_offset 10)).2
          (out ++ [⟨10, (tlb_hit s i (extract_offset 10)).1,
            read_physical_memory (tlb_hit s i (extract_offset 10)).2
              (tlb_hit s i (extract_offset 10)).1⟩]) := by
      rw [main_loop]
      simp [fscanf_d, htr]
    have hl' : tlb_lookup (tlb_hit s i (extract_offset 10)).2 0 = some i := hl
    have hout' : ∀ l, l ∈ out ++ [(⟨10, (tlb_hit s i (extract_offset 10)).1,
        read_physical_memory (tlb_hit s i (extract_offset 10)).2
          (tlb_hit s i (extract_offset 10)).1⟩ : Line)] → l.logical_address = 10 := by
      intro l hmem
      rw [List.mem_append] at hmem
      rcases hmem with hmem | hmem
      · exact hout l hmem
      · rw [List.mem_singleton] at hmem
        rw [hmem]
    have := ih (tlb_hit s i (extract_offset 10)).2 _ i hl' hout'
    rw [hstep]
    refine ⟨this.1, ?_, this.2.2⟩
    rw [this.2.1, List.length_append]
    simp
    omega

theorem main_loop_first (fuel : Nat) (la0 : Int) :
    (main_loop one_page_store fuel [.int 10, .other] la0 init_state []).ended = false ∧
    (main_loop one_page_store fuel [.int 10, .other] la0 init_state []).stdout.length = fuel ∧
    (∀ l, l ∈ (main_loop one_page_store fuel [.int 10, .other] la0 init_state []).stdout →
      l.logical_address = 10) := by
  cases fuel with
  | zero => exact ⟨rfl, rfl, by intro l hl; cases hl⟩
  | succ fuel =>
    have htr : translate_address one_page_store 10 init_state =
        .ok ((results_of (translate_all one_page_store [10] init_state)).headD 0,
          state_of (translate_all one_page_store [10] init_state)) := by
      set_option maxRecDepth 100000 in rfl
    have hl : tlb_lookup (state_of (translate_all one_page_store [10] init_state)) 0
        = some 0 := by
      set_option maxRecDepth 100000 in decide
    have hstep : main_loop one_page_store (fuel + 1) [.int 10, .other] la0 init_state [] =
        main_loop one_page_store fuel [.other] 10
          (state_of (translate_all one_page_store [10] init_state))
          [⟨10, (results_of (translate_all one_page_store [10] init_state)).headD 0,
            read_physical_memory (state_of (translate_all one_page_store [10] init_state))
              ((results_of (translate_all one_page_store [10] init_state)).headD 0)⟩] := by
      rw [main_loop]
      simp [fscanf_d, htr, EOF]
    have hout : ∀ l, l ∈ [(⟨10,
        (results_of (translate_all one_page_store [10] init_state)).headD 0,
        read_physical_memory (state_of (translate_all one_page_store [10] init_state))
          ((results_of (translate_all one_page_store [10] init_state)).headD 0)⟩ : Line)] →
        l.logical_address = 10 := by
      intro l hmem
      rw [List.mem_singleton] at hmem
      rw [hmem]
    have := main_loop_stale one_page_store fuel _ _ 0 hl hout
    rw [hstep]
    refine ⟨this.1, ?_, this.2.2⟩
    rw [this.2.1]
    simp
    omega

set_option maxRecDepth 100000 in
theorem main_exits_at_end_of_file :
    main 3 (some one_page_store) (some [.int 10]) 0 2 =
      some ⟨0, [⟨10, 65546, none⟩], some (1, 2)⟩ := by
  decide

/-- C10. On the addresses input `10` followed by the text `end`, `main` never
exits: whatever number of iterations is allowed, the loop is still running,
and by then it has printed one line per iteration, every one of them for
address 10. The claim says the loop ends after exactly one line with exit
code 0. -/
theorem main_never_exits_on_text (fuel : Nat) (la0 : Int) :
    main 3 (some one_page_store) (some [.int 10, .other]) la0 fuel = none ∧
    (main_loop one_page_store fuel [.int 10, .other] la0 init_state []).stdout.length = fuel ∧
    (∀ l, l ∈ (main_loop one_page_store fuel [.int 10, .other] la0 init_state []).stdout →
      l.logical_address = 10) := by
  obtain ⟨h1, h2, h3⟩ := main_loop_first fuel la0
  refine ⟨?_, h2, h3⟩
  unfold main
  cases hr : main_loop one_page_store fuel [.int 10, .other] la0 init_state [] with
  | finished out s => rw [hr] at h1; cases h1
  | fatal out f => rw [hr] at h1; cases h1
  | still_running out s => simp [hr]

/-! ## The invariant of the stamps and of the frames -/

theorem stamp_inv_init : StampInv init_state := by
  refine ⟨by simp [init_state], ?_, ?_, ?_⟩
  · intro i _; simp [init_state]
  · intro i j _ _ _ h; simp [init_state] at h
  · intro i hi _; simp [init_state, hi]

theorem frames_distinct_init : FramesDistinct init_state := by
  intro p q hp _ h
  simp [init_state, hp] at h

/-- A step that advances the clock by one, stamps slot `o` with the new clock
value and changes no other slot keeps the invariant of the stamps. -/
theorem stamp_inv_touch {s s' : VM} (h2 : StampInv s)
    (hst : ∀ j, j < TLB_SIZE → s.tlb_last_access j ≤ s.tlb_hits) (o : Nat)
    (hclock : s'.tlb_hits = s.tlb_hits + 1)
    (hstamps : s'.tlb_last_access = upd s.tlb_last_access o (s.tlb_hits + 1))
    (htlb : ∀ j, j ≠ o → s'.tlb j = s.tlb j) : StampInv s' := by
  have hc := h2.clock
  refine ⟨by omega, ?_, ?_, ?_⟩
  · intro i hi
    rw [hstamps]
    by_cases hio : i = o
    · subst hio; rw [upd_same]; omega
    · rw [upd_other _ _ hio]; exact h2.nonneg i hi
  · intro i j hi hj hij hne
    rw [hstamps] at hne ⊢
    by_cases hio : i = o
    · subst hio
      have hjo : j ≠ i := fun h => hij h.symm
      rw [upd_same, upd_other _ _ hjo]
      have := hst j hj
      omega
    · rw [upd_other _ _ hio] at hne ⊢
      by_cases hjo : j = o
      · subst hjo
        rw [upd_same]
        have := hst i hi
        omega
      · rw [upd_other _ _ hjo]
        exact h2.distinct i j hi hj hij hne
  · intro i hi hz
    rw [hstamps] at hz
    by_cases hio : i = o
    · subst hio
      rw [upd_same] at hz
      omega
    · rw [upd_other _ _ hio] at hz
      rw [htlb i hio]
      exact h2.untouched i hi hz

theorem stamp_inv_tlb_hit {V : Finset Int} {s : VM} (hinv : Inv V s) (h2 : StampInv s)
    (i : Nat) (offset : Int) : StampInv (tlb_hit s i offset).2 :=
  stamp_inv_touch h2 hinv.stamps i rfl rfl (fun _ _ => rfl)

theorem stamp_inv_tlb_update {V : Finset Int} {s : VM} (hinv : Inv V s) (h2 : StampInv s)
    (p offset : Int) : StampInv (tlb_update s p offset).2 :=
  stamp_inv_touch h2 hinv.stamps (oldest_index s.tlb_last_access) rfl rfl (by
    intro j hj
    show upd2 (upd2 s.tlb _ 0 p) _ 1 (s.page_table p.toNat) j = s.tlb j
    funext d
    rw [upd2_other_row _ _ _ _ hj, upd2_other_row _ _ _ _ hj])

theorem stamp_inv_handle_page_fault {V : Finset Int} {s s1 : VM} {bs : BackingStore} {p : Int}
    (hinv : Inv V s) (h2 : StampInv s) (h : handle_page_fault bs p s = .ok s1) :
    StampInv s1 := by
  obtain ⟨_, e2, e3, _, e5, _, _, _⟩ := handle_page_fault_fields h
  refine stamp_inv_touch h2 hinv.stamps (oldest_index s.tlb_last_access) e5 e3 ?_
  intro j hj
  rw [e2]
  funext d
  rw [upd2_other_row _ _ _ _ hj, upd2_other_row _ _ _ _ hj]

theorem frames_distinct_handle_page_fault {V : Finset Int} {s s1 : VM} {bs : BackingStore}
    {p : Int} (hinv : Inv V s) (hd : FramesDistinct s)
    (h : handle_page_fault bs p s = .ok s1) : FramesDistinct s1 := by
  have e1 := (handle_page_fault_fields h).1
  intro q r hq hr hm he
  rw [e1] at hm he
  by_cases hqp : q = p.toNat
  · by_cases hrp : r = p.toNat
    · rw [hqp, hrp]
    · exfalso
      rw [hqp, upd_same, upd_other _ _ hrp] at he
      have hmr : s.page_table r ≠ TLB_MISS := by
        intro hmiss
        rw [hqp, upd_same] at hm
        rw [← he] at hmiss
        exact hm hmiss
      have := (hinv.frames r hr hmr).1
      omega
  · rw [upd_other _ _ hqp] at hm he
    by_cases hrp : r = p.toNat
    · exfalso
      rw [hrp, upd_same] at he
      have := (hinv.frames q hq hm).1
      omega
    · rw [upd_other _ _ hrp] at he
      exact hd q r hq hr hm he

theorem stamp_frames_step {V : Finset Int} {s s' : VM} {bs : BackingStore} {a pa : Int}
    (hinv : Inv V s) (h2 : StampInv s) (hd : FramesDistinct s)
    (h : translate_address bs a s = .ok (pa, s')) : StampInv s' ∧ FramesDistinct s' := by
  have hp0 := extract_page_number_nonneg a
  have hp1 := extract_page_number_lt a
  rcases translate_address_cases h with ⟨i, _, he⟩ | ⟨_, _, he⟩ | ⟨_, hun, s1, hf, he⟩
  · have : s' = (tlb_hit s i (extract_offset a)).2 := congrArg Prod.snd he
    rw [this]
    exact ⟨stamp_inv_tlb_hit hinv h2 i _, hd⟩
  · have : s' = (tlb_update s (extract_page_number a) (extract_offset a)).2 :=
      congrArg Prod.snd he
    rw [this]
    exact ⟨stamp_inv_tlb_update hinv h2 _ _, hd⟩
  · have : s' = (tlb_update s1 (extract_page_number a) (extract_offset a)).2 :=
      congrArg Prod.snd he
    rw [this]
    have hd1 : FramesDistinct s1 := frames_distinct_handle_page_fault hinv hd hf
    exact ⟨stamp_inv_tlb_update (inv_handle_page_fault hinv hp0 hp1 hun hf)
        (stamp_inv_handle_page_fault hinv h2 hf) _ _, hd1⟩

theorem stamp_frames_translate_all {bs : BackingStore} (addrs : List Int) :
    ∀ {V : Finset Int} {s s' : VM} {pas : List Int}, Inv V s → StampInv s →
      FramesDistinct s → translate_all bs addrs s = .ok (pas, s') →
      StampInv s' ∧ FramesDistinct s' := by
  induction addrs with
  | nil =>
    intro V s s' pas _ h2 hd h
    simp only [translate_all] at h
    injection h with h
    injection h with _ h
    subst h
    exact ⟨h2, hd⟩
  | cons a rest ih =>
    intro V s s' pas hinv h2 hd h
    obtain ⟨pa, s1, pas', h1, hrest, _⟩ := translate_all_cons_ok h
    obtain ⟨h2', hd'⟩ := stamp_frames_step hinv h2 hd h1
    exact ih (inv_step hinv h1) h2' hd' hrest

theorem stamp_inv_reachable {bs : BackingStore} {addrs pas : List Int} {s : VM}
    (h : translate_all bs addrs init_state = .ok (pas, s)) : StampInv s :=
  (stamp_frames_translate_all addrs inv_init stamp_inv_init frames_distinct_init h).1

theorem frames_distinct_reachable {bs : BackingStore} {addrs pas : List Int} {s : VM}
    (h : translate_all bs addrs init_state = .ok (pas, s)) : FramesDistinct s :=
  (stamp_frames_translate_all addrs inv_init stamp_inv_init frames_distinct_init h).2

/-! ## C11 : insertion on a TLB miss with a mapped page -/

theorem path_of_table_hit {s : VM} {a : Int} (h : path_of s a = .table_hit) :
    tlb_lookup s (extract_page_number a) = none ∧
      s.page_table (extract_page_number a).toNat ≠ TLB_MISS := by
  unfold path_of at h
  cases hl : tlb_lookup s (extract_page_number a) with
  | some i => simp [hl] at h
  | none =>
    by_cases hp : s.page_table (extract_page_number a).toNat = TLB_MISS
    · simp [hl, hp] at h
    · exact ⟨rfl, hp⟩

theorem translate_address_table_hit {bs : BackingStore} {s : VM} {a : Int}
    (h : path_of s a = .table_hit) :
    translate_address bs a s =
      .ok (tlb_update s (extract_page_number a) (extract_offset a)) := by
  obtain ⟨hl, hp⟩ := path_of_table_hit h
  unfold translate_address
  simp only [hl, hp, if_false]

/-- C11. In a state reached from the initialised state, a translation of a
page `p` that is absent from the TLB but mapped returns, and changes exactly
one TLB slot: the slot `o` with the smallest stamp, the lowest index among
equal stamps (so, stamps not being negative, a slot of stamp 0 is taken when
there is one). That slot did not hold `p`; afterwards it holds
`(p, page_table[p])` and its stamp is the clock, which has advanced by one.
Every other slot and stamp, the page table, `page_faults` and
`num_free_frames` are unchanged. The path runs lines 89-106 only: it calls no
`handle_page_fault` and stores nothing in physical memory, and the statement
holds in every state. -/
theorem lru_insertion_on_mapped_miss (bs : BackingStore) (addrs pas : List Int) (s : VM)
    (a : Int) (_hreach : translate_all bs addrs init_state = .ok (pas, s))
    (hpath : path_of s a = .table_hit) :
    ∃ pa s' o, translate_address bs a s = .ok (pa, s') ∧
      o = oldest_index s.tlb_last_access ∧ o < TLB_SIZE ∧
      (∀ j, j < TLB_SIZE → s.tlb_last_access o ≤ s.tlb_last_access j) ∧
      (∀ j, j < o → s.tlb_last_access o < s.tlb_last_access j) ∧
      ((∀ j, j < TLB_SIZE → 0 ≤ s.tlb_last_access j) →
        (∃ j, j < TLB_SIZE ∧ s.tlb_last_access j = 0) → s.tlb_last_access o = 0) ∧
      s.tlb o 0 ≠ extract_page_number a ∧
      s'.tlb o 0 = extract_page_number a ∧
      s'.tlb o 1 = s'.page_table (extract_page_number a).toNat ∧
      s'.tlb_hits = s.tlb_hits + 1 ∧
      s'.tlb_last_access o = s'.tlb_hits ∧
      (∀ j, j ≠ o → s'.tlb j = s.tlb j ∧ s'.tlb_last_access j = s.tlb_last_access j) ∧
      s'.page_table = s.page_table ∧
      s'.page_faults = s.page_faults ∧ s'.num_free_frames = s.num_free_frames ∧
      s'.physical_memory = s.physical_memory ∧ s'.out_of_array = s.out_of_array := by
  obtain ⟨hl, _⟩ := path_of_table_hit hpath
  have ho := oldest_index_lt s.tlb_last_access
  refine ⟨_, _, oldest_index s.tlb_last_access, translate_address_table_hit hpath, rfl, ho,
    oldest_index_le s.tlb_last_access, oldest_index_first s.tlb_last_access, ?_,
    (tlb_lookup_none.1 hl) _ ho, ?_, ?_, rfl, ?_, ?_, rfl, rfl, rfl, rfl, rfl⟩
  · rintro hnn ⟨j, hj, hz⟩
    have h1 := oldest_index_le s.tlb_last_access j hj
    have h2 := hnn _ ho
    omega
  · show upd2 (upd2 s.tlb _ 0 _) _ 1 _ (oldest_index s.tlb_last_access) 0 = _
    rw [upd2_same_row, upd2_same_row]
    simp
  · show upd2 (upd2 s.tlb _ 0 _) _ 1 _ (oldest_index s.tlb_last_access) 1 = _
    rw [upd2_same_row]
    simp
  · show upd s.tlb_last_access _ (s.tlb_hits + 1) (oldest_index s.tlb_last_access) = _
    rw [upd_same]
  · intro j hj
    constructor
    · show upd2 (upd2 s.tlb _ 0 _) _ 1 _ j = s.tlb j
      funext d
      rw [upd2_other_row _ _ _ _ hj, upd2_other_row _ _ _ _ hj]
    · show upd s.tlb_last_access _ (s.tlb_hits + 1) j = _
      rw [upd_other _ _ hj]

set_option maxRecDepth 100000 in
theorem lru_insertion_on_mapped_miss_witness :
    translate_all zero_store nine_pages init_state =
      .ok (run_results zero_store nine_pages, run_state zero_store nine_pages) ∧
    path_of (run_state zero_store nine_pages) 0 = .table_hit ∧
    ∃ pa s' o, translate_address zero_store 0 (run_state zero_store nine_pages) = .ok (pa, s') ∧
      o = oldest_index (run_state zero_store nine_pages).tlb_last_access ∧ o < TLB_SIZE ∧
      (∀ j, j < TLB_SIZE → (run_state zero_store nine_pages).tlb_last_access o ≤
        (run_state zero_store nine_pages).tlb_last_access j) ∧
      (∀ j, j < o → (run_state zero_store nine_pages).tlb_last_access o <
        (run_state zero_store nine_pages).tlb_last_access j) ∧
      ((∀ j, j < TLB_SIZE → 0 ≤ (run_state zero_store nine_pages).tlb_last_access j) →
        (∃ j, j < TLB_SIZE ∧ (run_state zero_store nine_pages).tlb_last_access j = 0) →
        (run_state zero_store nine_pages).tlb_last_access o = 0) ∧
      (run_state zero_store nine_pages).tlb o 0 ≠ extract_page_number 0 ∧
      s'.tlb o 0 = extract_page_number 0 ∧
      s'.tlb o 1 = s'.page_table (extract_page_number 0).toNat ∧
      s'.tlb_hits = (run_state zero_store nine_pages).tlb_hits + 1 ∧
      s'.tlb_last_access o = s'.tlb_hits ∧
      (∀ j, j ≠ o → s'.tlb j = (run_state zero_store nine_pages).tlb j ∧
        s'.tlb_last_access j = (run_state zero_store nine_pages).tlb_last_access j) ∧
      s'.page_table = (run_state zero_store nine_pages).page_table ∧
      s'.page_faults = (run_state zero_store nine_pages).page_faults ∧
      s'.num_free_frames = (run_state zero_store nine_pages).num_free_frames ∧
      s'.physical_memory = (run_state zero_store nine_pages).physical_memory ∧
      s'.out_of_array = (run_state zero_store nine_pages).out_of_array :=
  ⟨rfl, by decide,
    lru_insertion_on_mapped_miss zero_store nine_pages _ _ 0 rfl (by decide)⟩

/-! ## C12 : the TLB-hit path -/

theorem tlb_lookup_of_present {s : VM} {p : Int} {j : Nat} (hj : j < TLB_SIZE)
    (hp : s.tlb j 0 = p) : ∃ i, tlb_lookup s p = some i ∧ i ≤ j := by
  cases hl : tlb_lookup s p with
  | none => exact absurd hp (tlb_lookup_none.1 hl j hj)
  | some i =>
    refine ⟨i, rfl, ?_⟩
    by_contra hlt
    exact (tlb_lookup_some hl).2.2 j (by omega) hp

theorem translate_address_tlb_hit {bs : BackingStore} {s : VM} {a : Int} {i : Nat}
    (h : tlb_lookup s (extract_page_number a) = some i) :
    translate_address bs a s = .ok (tlb_hit s i (extract_offset a)) := by
  unfold translate_address
  simp only [h]

/-- C12. In a state reached from the initialised state, a translation of a page
`p` that some TLB slot holds returns the frame of the first slot `i` that holds
`p`, times 256, plus the offset. It advances the clock by exactly one and
stamps slot `i` with the new clock value. The page table, `page_faults`,
`num_free_frames`, physical memory, the page and frame of every TLB slot and
the stamp of every other slot are unchanged. -/
theorem tlb_hit_path (bs : BackingStore) (addrs pas : List Int) (s : VM) (a : Int) (j : Nat)
    (_hreach : translate_all bs addrs init_state = .ok (pas, s))
    (hj : j < TLB_SIZE) (hpresent : s.tlb j 0 = extract_page_number a) :
    ∃ i s', i ≤ j ∧ s.tlb i 0 = extract_page_number a ∧
      (∀ k, k < i → s.tlb k 0 ≠ extract_page_number a) ∧
      translate_address bs a s = .ok (s.tlb i 1 * 256 + extract_offset a, s') ∧
      s'.tlb_hits = s.tlb_hits + 1 ∧
      s'.tlb_last_access i = s'.tlb_hits ∧
      (∀ k, k ≠ i → s'.tlb_last_access k = s.tlb_last_access k) ∧
      s'.tlb = s.tlb ∧ s'.page_table = s.page_table ∧
      s'.page_faults = s.page_faults ∧ s'.num_free_frames = s.num_free_frames ∧
      s'.physical_memory = s.physical_memory := by
  obtain ⟨i, hl, hij⟩ := tlb_lookup_of_present hj hpresent
  obtain ⟨_, h1, h2⟩ := tlb_lookup_some hl
  refine ⟨i, (tlb_hit s i (extract_offset a)).2, hij, h1, h2, translate_address_tlb_hit hl,
    rfl, ?_, ?_, rfl, rfl, rfl, rfl, rfl⟩
  · show upd s.tlb_last_access i (s.tlb_hits + 1) i = s.tlb_hits + 1
    rw [upd_same]
  · intro k hk
    show upd s.tlb_last_access i (s.tlb_hits + 1) k = _
    rw [upd_other _ _ hk]

set_option maxRecDepth 100000 in
theorem tlb_hit_path_witness :
    translate_all scenario_store [0] init_state =
      .ok (run_results scenario_store [0], run_state scenario_store [0]) ∧
    (1 : Nat) < TLB_SIZE ∧
    (run_state scenario_store [0]).tlb 1 0 = extract_page_number 7 ∧
    ∃ i s', i ≤ 1 ∧ (run_state scenario_store [0]).tlb i 0 = extract_page_number 7 ∧
      (∀ k, k < i → (run_state scenario_store [0]).tlb k 0 ≠ extract_page_number 7) ∧
      translate_address scenario_store 7 (run_state scenario_store [0]) =
        .ok ((run_state scenario_store [0]).tlb i 1 * 256 + extract_offset 7, s') ∧
      s'.tlb_hits = (run_state scenario_store [0]).tlb_hits + 1 ∧
      s'.tlb_last_access i = s'.tlb_hits ∧
      (∀ k, k ≠ i → s'.tlb_last_access k = (run_state scenario_store [0]).tlb_last_access k) ∧
      s'.tlb = (run_state scenario_store [0]).tlb ∧
      s'.page_table = (run_state scenario_store [0]).page_table ∧
      s'.page_faults = (run_state scenario_store [0]).page_faults ∧
      s'.num_free_frames = (run_state scenario_store [0]).num_free_frames ∧
      s'.physical_memory = (run_state scenario_store [0]).physical_memory :=
  ⟨rfl, by decide, by decide,
    tlb_hit_path scenario_store [0] _ _ 7 1 rfl (by decide) (by decide)⟩

/-! ## The TLB agrees with the page table, on the continuation -/

/-- Continuation lemma. In a state reached from the initialised state, every TLB slot whose
page field is not -1 holds a page number in `0..255` that is mapped, and its
frame field is the page-table entry of that page: a TLB hit and a page-table
lookup for the same page give the same frame. -/
theorem tlb_coherence (bs : BackingStore) (addrs pas : List Int) (s : VM) (i : Nat)
    (hreach : translate_all bs addrs init_state = .ok (pas, s))
    (hi : i < TLB_SIZE) (hpage : s.tlb i 0 ≠ TLB_MISS) :
    (0 ≤ s.tlb i 0 ∧ s.tlb i 0 ≤ 255) ∧
    s.page_table (s.tlb i 0).toNat ≠ TLB_MISS ∧
    s.tlb i 1 = s.page_table (s.tlb i 0).toNat := by
  rcases (inv_reachable hreach).coherent i hi with hc | ⟨c0, c1, c2, c3⟩
  · exact absurd hc hpage
  · exact ⟨⟨c0, by omega⟩, c2, c3⟩

set_option maxRecDepth 100000 in
theorem tlb_coherence_witness :
    translate_all scenario_store [0, 256] init_state =
      .ok (run_results scenario_store [0, 256], run_state scenario_store [0, 256]) ∧
    (3 : Nat) < TLB_SIZE ∧
    (run_state scenario_store [0, 256]).tlb 3 0 ≠ TLB_MISS ∧
    ((0 ≤ (run_state scenario_store [0, 256]).tlb 3 0 ∧
      (run_state scenario_store [0, 256]).tlb 3 0 ≤ 255) ∧
    (run_state scenario_store [0, 256]).page_table
      ((run_state scenario_store [0, 256]).tlb 3 0).toNat ≠ TLB_MISS ∧
    (run_state scenario_store [0, 256]).tlb 3 1 =
      (run_state scenario_store [0, 256]).page_table
        ((run_state scenario_store [0, 256]).tlb 3 0).toNat) :=
  ⟨rfl, by decide, by decide,
    tlb_coherence scenario_store [0, 256] _ _ 3 rfl (by decide) (by decide)⟩

/-! ## The clock counts translations and faults, on the continuation -/

theorem translate_address_counters {bs : BackingStore} {a pa : Int} {s s' : VM}
    (h : translate_address bs a s = .ok (pa, s')) :
    s'.tlb_hits - s'.page_faults = s.tlb_hits - s.page_faults + 1 := by
  rcases translate_address_cases h with ⟨i, _, he⟩ | ⟨_, _, he⟩ | ⟨_, _, s1, hf, he⟩
  · have : s' = (tlb_hit s i (extract_offset a)).2 := congrArg Prod.snd he
    rw [this]
    show s.tlb_hits + 1 - s.page_faults = _
    omega
  · have : s' = (tlb_update s (extract_page_number a) (extract_offset a)).2 :=
      congrArg Prod.snd he
    rw [this]
    show s.tlb_hits + 1 - s.page_faults = _
    omega
  · have : s' = (tlb_update s1 (extract_page_number a) (extract_offset a)).2 :=
      congrArg Prod.snd he
    rw [this]
    obtain ⟨_, _, _, e4, e5, _⟩ := handle_page_fault_fields hf
    show s1.tlb_hits + 1 - s1.page_faults = _
    rw [e4, e5]
    omega

theorem translate_all_counters {bs : BackingStore} (addrs : List Int) :
    ∀ {s s' : VM} {pas : List Int}, translate_all bs addrs s = .ok (pas, s') →
      s'.tlb_hits - s'.page_faults = s.tlb_hits - s.page_faults + addrs.length := by
  induction addrs with
  | nil =>
    intro s s' pas h
    simp only [translate_all] at h
    injection h with h
    injection h with _ h
    subst h
    simp
  | cons a rest ih =>
    intro s s' pas h
    obtain ⟨pa, s1, pas', h1, h2, _⟩ := translate_all_cons_ok h
    have e1 := translate_address_counters h1
    have e2 := ih h2
    rw [List.length_cons]
    push_cast
    omega

theorem translate_address_clock {bs : BackingStore} {a pa : Int} {s s' : VM}
    (h : translate_address bs a s = .ok (pa, s')) :
    s'.tlb_hits = s.tlb_hits + (if path_of s a = .page_fault then 2 else 1) ∧
    s'.page_faults = s.page_faults + (if path_of s a = .page_fault then 1 else 0) := by
  rcases translate_address_cases h with ⟨i, hl, he⟩ | ⟨hl, hm, he⟩ | ⟨hl, hun, s1, hf, he⟩
  · have : s' = (tlb_hit s i (extract_offset a)).2 := congrArg Prod.snd he
    rw [this]
    have hp : path_of s a = .tlb_hit := by simp [path_of, hl]
    simp only [hp]
    exact ⟨rfl, by simp; rfl⟩
  · have : s' = (tlb_update s (extract_page_number a) (extract_offset a)).2 :=
      congrArg Prod.snd he
    rw [this]
    have hp : path_of s a = .table_hit := by simp [path_of, hl, hm]
    simp only [hp]
    exact ⟨rfl, by simp; rfl⟩
  · have : s' = (tlb_update s1 (extract_page_number a) (extract_offset a)).2 :=
      congrArg Prod.snd he
    rw [this]
    have hp : path_of s a = .page_fault := by simp [path_of, hl, hun]
    obtain ⟨_, _, _, e4, e5, _⟩ := handle_page_fault_fields hf
    simp only [hp, if_true]
    constructor
    · show s1.tlb_hits + 1 = _
      rw [e5]; ring
    · exact e4

/-- Continuation lemma. After the translation of any sequence of `n` addresses from the
initialised state, `tlb_hits = n + page_faults`: from a state so reached, a
translation advances `tlb_hits`, the counter printed as the number of TLB
hits, by one on a TLB hit and on a miss with a mapped page and by two on a
page fault, and it advances `page_faults` on a page fault only. -/
theorem counter_identity (bs : BackingStore) (addrs pas : List Int) (s : VM)
    (hreach : translate_all bs addrs init_state = .ok (pas, s)) :
    s.tlb_hits = (addrs.length : Int) + s.page_faults ∧
    ∀ a pa s', translate_address bs a s = .ok (pa, s') →
      s'.tlb_hits = s.tlb_hits + (if path_of s a = .page_fault then 2 else 1) ∧
      s'.page_faults = s.page_faults + (if path_of s a = .page_fault then 1 else 0) := by
  refine ⟨?_, fun a pa s' h => translate_address_clock h⟩
  have := translate_all_counters addrs hreach
  have h0 : init_state.tlb_hits = 0 := rfl
  have h1 : init_state.page_faults = 0 := rfl
  omega

set_option maxRecDepth 100000 in
theorem counter_identity_witness :
    translate_all scenario_store [0, 0, 256] init_state =
      .ok (run_results scenario_store [0, 0, 256], run_state scenario_store [0, 0, 256]) ∧
    ((run_state scenario_store [0, 0, 256]).tlb_hits =
      (([0, 0, 256] : List Int).length : Int) +
        (run_state scenario_store [0, 0, 256]).page_faults ∧
    ∀ a pa s', translate_address scenario_store a (run_state scenario_store [0, 0, 256])
        = .ok (pa, s') →
      s'.tlb_hits = (run_state scenario_store [0, 0, 256]).tlb_hits +
        (if path_of (run_state scenario_store [0, 0, 256]) a = .page_fault then 2 else 1) ∧
      s'.page_faults = (run_state scenario_store [0, 0, 256]).page_faults +
        (if path_of (run_state scenario_store [0, 0, 256]) a = .page_fault then 1 else 0)) :=
  ⟨rfl, counter_identity scenario_store [0, 0, 256] _ _ rfl⟩

/-! ## The stamps order the touched slots strictly, on the continuation -/

/-- Continuation lemma. In a state reached from the initialised state no stamp is ahead of
the clock `tlb_hits`, and two different slots with non-zero stamps have
different stamps. Two different slots with equal stamps both have stamp 0 and
still hold their initial content (page -1), and the slot of smallest non-zero
stamp is unique. -/
theorem strict_recency_order (bs : BackingStore) (addrs pas : List Int) (s : VM)
    (hreach : translate_all bs addrs init_state = .ok (pas, s)) :
    (∀ i, i < TLB_SIZE → s.tlb_last_access i ≤ s.tlb_hits) ∧
    (∀ i j, i < TLB_SIZE → j < TLB_SIZE → i ≠ j → s.tlb_last_access i ≠ 0 →
      s.tlb_last_access j ≠ 0 → s.tlb_last_access i ≠ s.tlb_last_access j) ∧
    (∀ i j, i < TLB_SIZE → j < TLB_SIZE → i ≠ j →
      s.tlb_last_access i = s.tlb_last_access j →
      s.tlb_last_access i = 0 ∧ s.tlb_last_access j = 0 ∧
        s.tlb i 0 = TLB_MISS ∧ s.tlb j 0 = TLB_MISS) ∧
    (∀ i j, i < TLB_SIZE → j < TLB_SIZE →
      s.tlb_last_access i ≠ 0 → s.tlb_last_access j ≠ 0 →
      (∀ k, k < TLB_SIZE → s.tlb_last_access k ≠ 0 →
        s.tlb_last_access i ≤ s.tlb_last_access k) →
      (∀ k, k < TLB_SIZE → s.tlb_last_access k ≠ 0 →
        s.tlb_last_access j ≤ s.tlb_last_access k) → i = j) := by
  have hinv := inv_reachable hreach
  have hst := stamp_inv_reachable hreach
  refine ⟨hinv.stamps, ?_, ?_, ?_⟩
  · intro i j hi hj hij hne _
    exact hst.distinct i j hi hj hij hne
  · intro i j hi hj hij heq
    have hzi : s.tlb_last_access i = 0 := by
      by_contra hne
      exact hst.distinct i j hi hj hij hne heq
    have hzj : s.tlb_last_access j = 0 := by rw [← heq]; exact hzi
    exact ⟨hzi, hzj, (hst.untouched i hi hzi).1, (hst.untouched j hj hzj).1⟩
  · intro i j hi hj hni hnj hmi hmj
    by_contra hij
    have h1 := hmi j hj hnj
    have h2 := hmj i hi hni
    exact hst.distinct i j hi hj hij hni (le_antisymm h1 h2)

set_option maxRecDepth 100000 in
theorem strict_recency_order_witness :
    translate_all scenario_store [0, 0, 256] init_state =
      .ok (run_results scenario_store [0, 0, 256], run_state scenario_store [0, 0, 256]) ∧
    ((∀ i, i < TLB_SIZE → (run_state scenario_store [0, 0, 256]).tlb_last_access i ≤
      (run_state scenario_store [0, 0, 256]).tlb_hits) ∧
    (∀ i j, i < TLB_SIZE → j < TLB_SIZE → i ≠ j →
      (run_state scenario_store [0, 0, 256]).tlb_last_access i ≠ 0 →
      (run_state scenario_store [0, 0, 256]).tlb_last_access j ≠ 0 →
      (run_state scenario_store [0, 0, 256]).tlb_last_access i ≠
        (run_state scenario_store [0, 0, 256]).tlb_last_access j) ∧
    (∀ i j, i < TLB_SIZE → j < TLB_SIZE → i ≠ j →
      (run_state scenario_store [0, 0, 256]).tlb_last_access i =
        (run_state scenario_store [0, 0, 256]).tlb_last_access j →
      (run_state scenario_store [0, 0, 256]).tlb_last_access i = 0 ∧
        (run_state scenario_store [0, 0, 256]).tlb_last_access j = 0 ∧
        (run_state scenario_store [0, 0, 256]).tlb i 0 = TLB_MISS ∧
        (run_state scenario_store [0, 0, 256]).tlb j 0 = TLB_MISS) ∧
    (∀ i j, i < TLB_SIZE → j < TLB_SIZE →
      (run_state scenario_store [0, 0, 256]).tlb_last_access i ≠ 0 →
      (run_state scenario_store [0, 0, 256]).tlb_last_access j ≠ 0 →
      (∀ k, k < TLB_SIZE → (run_state scenario_store [0, 0, 256]).tlb_last_access k ≠ 0 →
        (run_state scenario_store [0, 0, 256]).tlb_last_access i ≤
          (run_state scenario_store [0, 0, 256]).tlb_last_access k) →
      (∀ k, k < TLB_SIZE → (run_state scenario_store [0, 0, 256]).tlb_last_access k ≠ 0 →
        (run_state scenario_store [0, 0, 256]).tlb_last_access j ≤
          (run_state scenario_store [0, 0, 256]).tlb_last_access k) → i = j)) :=
  ⟨rfl, strict_recency_order scenario_store [0, 0, 256] _ _ rfl⟩

/-! ## A fault inserts the page twice, on the continuation -/

theorem translate_address_fault {bs : BackingStore} {s s1 : VM} {a : Int}
    (h : path_of s a = .page_fault)
    (hf : handle_page_fault bs (extract_page_number a) s = .ok s1) :
    translate_address bs a s =
      .ok (tlb_update s1 (extract_page_number a) (extract_offset a)) := by
  obtain ⟨hl, hp⟩ := path_of_page_fault h
  unfold translate_address
  simp only [hl, hp, if_true, hf]

theorem oldest_index_after_touch {la : Nat → Int} {clock : Int}
    (hst : ∀ j, j < TLB_SIZE → la j ≤ clock) (o : Nat) :
    oldest_index (upd la o (clock + 1)) ≠ o := by
  intro heq
  have hle := oldest_index_le (upd la o (clock + 1)) (if o = 0 then 1 else 0)
    (by split <;> decide)
  rw [heq, upd_same] at hle
  by_cases ho : o = 0
  · subst ho
    rw [if_pos rfl, upd_other _ _ (by decide)] at hle
    have := hst 1 (by decide)
    omega
  · rw [if_neg ho, upd_other _ _ (fun h => ho h.symm)] at hle
    have := hst 0 (by decide)
    omega

/-- Continuation lemma. In a state reached from the initialised state, a translation that
takes the page-fault path for a page `p` the backing store can supply returns
and writes `(p, frame)` into two different TLB slots: `o1`, the slot of
smallest stamp, inside `handle_page_fault`, then `o2`, the slot of smallest
stamp of the updated TLB, inside `translate_address`. Neither slot held `p`
before, both hold it afterwards, and no other slot is changed. -/
theorem double_insertion_on_fault (bs : BackingStore) (addrs pas : List Int) (s : VM)
    (a : Int) (hreach : translate_all bs addrs init_state = .ok (pas, s))
    (hpath : path_of s a = .page_fault) (hsup : supplies bs (extract_page_number a)) :
    ∃ pa s' o1 o2, translate_address bs a s = .ok (pa, s') ∧
      o1 = oldest_index s.tlb_last_access ∧
      o2 = oldest_index (upd s.tlb_last_access o1 (s.tlb_hits + 1)) ∧
      o1 < TLB_SIZE ∧ o2 < TLB_SIZE ∧ o1 ≠ o2 ∧
      s.tlb o1 0 ≠ extract_page_number a ∧ s.tlb o2 0 ≠ extract_page_number a ∧
      s'.page_table (extract_page_number a).toNat = s.num_free_frames ∧
      s'.tlb o1 0 = extract_page_number a ∧ s'.tlb o1 1 = s.num_free_frames ∧
      s'.tlb o2 0 = extract_page_number a ∧ s'.tlb o2 1 = s.num_free_frames ∧
      s'.tlb_last_access o1 = s.tlb_hits + 1 ∧ s'.tlb_last_access o2 = s.tlb_hits + 2 ∧
      (∀ j, j ≠ o1 → j ≠ o2 →
        s'.tlb j = s.tlb j ∧ s'.tlb_last_access j = s.tlb_last_access j) := by
  have hinv := inv_reachable hreach
  obtain ⟨hl, _⟩ := path_of_page_fault hpath
  obtain ⟨s1, hf⟩ := (handle_page_fault_ok_iff bs (extract_page_number a) s).2 hsup
  obtain ⟨e1, e2, e3, _, e5, _, _, _⟩ := handle_page_fault_fields hf
  have ho1 := oldest_index_lt s.tlb_last_access
  have ho2 := oldest_index_lt (upd s.tlb_last_access (oldest_index s.tlb_last_access)
    (s.tlb_hits + 1))
  have hne : oldest_index (upd s.tlb_last_access (oldest_index s.tlb_last_access)
      (s.tlb_hits + 1)) ≠ oldest_index s.tlb_last_access :=
    oldest_index_after_touch hinv.stamps _
  obtain ⟨s', hs'⟩ : ∃ s', s' = (tlb_update s1 (extract_page_number a) (extract_offset a)).2 :=
    ⟨_, rfl⟩
  have htr : translate_address bs a s =
      .ok ((tlb_update s1 (extract_page_number a) (extract_offset a)).1, s') := by
    rw [hs']; exact translate_address_fault hpath hf
  have ht : s'.tlb =
      upd2 (upd2 s1.tlb (oldest_index s1.tlb_last_access) 0 (extract_page_number a))
        (oldest_index s1.tlb_last_access) 1 (s1.page_table (extract_page_number a).toNat) := by
    rw [hs']; rfl
  have hla : s'.tlb_last_access =
      upd s1.tlb_last_access (oldest_index s1.tlb_last_access) (s1.tlb_hits + 1) := by
    rw [hs']; rfl
  have hpt : s'.page_table = s1.page_table := by rw [hs']; rfl
  rw [e3] at ht hla
  rw [e1, e2] at ht
  rw [e5] at hla
  rw [e1] at hpt
  refine ⟨_, s', oldest_index s.tlb_last_access, _, htr, rfl, rfl,
    ho1, ho2, fun h => hne h.symm, (tlb_lookup_none.1 hl) _ ho1, (tlb_lookup_none.1 hl) _ ho2,
    ?_, ?_, ?_, ?_, ?_, ?_, ?_, ?_⟩
  · rw [hpt, upd_same]
  · rw [ht, upd2_other_row _ _ _ _ (fun h => hne h.symm),
      upd2_other_row _ _ _ _ (fun h => hne h.symm), upd2_same_row, upd2_same_row]
    simp
  · rw [ht, upd2_other_row _ _ _ _ (fun h => hne h.symm),
      upd2_other_row _ _ _ _ (fun h => hne h.symm), upd2_same_row]
    simp
  · rw [ht, upd2_same_row, upd2_same_row]
    simp
  · rw [ht, upd2_same_row, upd_same]
    simp
  · rw [hla, upd_other _ _ (fun h => hne h.symm), upd_same]
  · rw [hla, upd_same]
    ring
  · intro j hj1 hj2
    constructor
    · rw [ht]
      funext d
      rw [upd2_other_row _ _ _ _ hj2, upd2_other_row _ _ _ _ hj2,
        upd2_other_row _ _ _ _ hj1, upd2_other_row _ _ _ _ hj1]
    · rw [hla, upd_other _ _ hj2, upd_other _ _ hj1]

set_option maxRecDepth 100000 in
theorem double_insertion_on_fault_witness :
    translate_all scenario_store [0, 0, 256] init_state =
      .ok (run_results scenario_store [0, 0, 256], run_state scenario_store [0, 0, 256]) ∧
    path_of (run_state scenario_store [0, 0, 256]) 512 = .page_fault ∧
    supplies scenario_store (extract_page_number 512) ∧
    ∃ pa s' o1 o2,
      translate_address scenario_store 512 (run_state scenario_store [0, 0, 256])
        = .ok (pa, s') ∧
      o1 = oldest_index (run_state scenario_store [0, 0, 256]).tlb_last_access ∧
      o2 = oldest_index (upd (run_state scenario_store [0, 0, 256]).tlb_last_access o1
        ((run_state scenario_store [0, 0, 256]).tlb_hits + 1)) ∧
      o1 < TLB_SIZE ∧ o2 < TLB_SIZE ∧ o1 ≠ o2 ∧
      (run_state scenario_store [0, 0, 256]).tlb o1 0 ≠ extract_page_number 512 ∧
      (run_state scenario_store [0, 0, 256]).tlb o2 0 ≠ extract_page_number 512 ∧
      s'.page_table (extract_page_number 512).toNat =
        (run_state scenario_store [0, 0, 256]).num_free_frames ∧
      s'.tlb o1 0 = extract_page_number 512 ∧
      s'.tlb o1 1 = (run_state scenario_store [0, 0, 256]).num_free_frames ∧
      s'.tlb o2 0 = extract_page_number 512 ∧
      s'.tlb o2 1 = (run_state scenario_store [0, 0, 256]).num_free_frames ∧
      s'.tlb_last_access o1 = (run_state scenario_store [0, 0, 256]).tlb_hits + 1 ∧
      s'.tlb_last_access o2 = (run_state scenario_store [0, 0, 256]).tlb_hits + 2 ∧
      (∀ j, j ≠ o1 → j ≠ o2 →
        s'.tlb j = (run_state scenario_store [0, 0, 256]).tlb j ∧
        s'.tlb_last_access j = (run_state scenario_store [0, 0, 256]).tlb_last_access j) :=
  ⟨rfl, by decide, scenario_store_supplies _ (by decide) (by decide),
    double_insertion_on_fault scenario_store [0, 0, 256] _ _ 512 rfl (by decide)
      (scenario_store_supplies _ (by decide) (by decide))⟩

/-! ## The order of allocation, on the continuation -/

theorem card_le_of_range {V : Finset Int} (hV : ∀ v, v ∈ V → 0 ≤ v ∧ v < 256) :
    V.card ≤ 256 := by
  have hsub : V ⊆ Finset.Ico (0 : Int) 256 := by
    intro v hv
    rw [Finset.mem_Ico]
    exact hV v hv
  have hc := Finset.card_le_card hsub
  simpa using hc

/-- Continuation lemma. In a state reached from the initialised state,
`page_faults + num_free_frames = 256`, `num_free_frames` is not negative and at
most 256 faults have occurred; two different mapped pages have different
frames and every mapped frame lies in `1..256`. A translation from such a
state that takes the page-fault path is the fault number
`k = page_faults + 1` of the run and assigns frame `257 - k` to its page. -/
theorem allocation_order (bs : BackingStore) (addrs pas : List Int) (s : VM)
    (hreach : translate_all bs addrs init_state = .ok (pas, s)) :
    s.page_faults + s.num_free_frames = 256 ∧
    0 ≤ s.num_free_frames ∧ 0 ≤ s.page_faults ∧ s.page_faults ≤ 256 ∧
    (∀ p q : Nat, p < PAGE_TABLE_SIZE → q < PAGE_TABLE_SIZE → p ≠ q →
      s.page_table p ≠ TLB_MISS → s.page_table q ≠ TLB_MISS →
      s.page_table p ≠ s.page_table q) ∧
    (∀ p : Nat, p < PAGE_TABLE_SIZE → s.page_table p ≠ TLB_MISS →
      1 ≤ s.page_table p ∧ s.page_table p ≤ 256) ∧
    (∀ a pa s', path_of s a = .page_fault → translate_address bs a s = .ok (pa, s') →
      s'.page_faults = s.page_faults + 1 ∧
      s'.num_free_frames = s.num_free_frames - 1 ∧
      s'.page_table (extract_page_number a).toNat = 257 - s'.page_faults) := by
  have hinv := inv_reachable hreach
  have hd := frames_distinct_reachable hreach
  have hfree : s.num_free_frames = 256 - s.page_faults := hinv.free
  have hfaults := hinv.faults
  have hcard := card_le_of_range hinv.range
  refine ⟨by omega, by omega, by omega, by omega, ?_, ?_, ?_⟩
  · intro p q hp hq hpq hmp _ heq
    exact hpq (hd p q hp hq hmp heq)
  · intro p hp hmp
    have h1 := hinv.frames p hp hmp
    have h2 : s.page_table p ≤ 256 := h1.2
    exact ⟨by omega, h2⟩
  · intro a pa s' hpath h
    obtain ⟨hl, hun⟩ := path_of_page_fault hpath
    rcases translate_address_cases h with ⟨i, hl', _⟩ | ⟨_, hm, _⟩ | ⟨_, _, s1, hf, he⟩
    · rw [hl] at hl'; cases hl'
    · exact absurd hun hm
    · have hs' : s' = (tlb_update s1 (extract_page_number a) (extract_offset a)).2 :=
        congrArg Prod.snd he
      obtain ⟨e1, _, _, e4, _, e6, _, _⟩ := handle_page_fault_fields hf
      have h1 : s'.page_faults = s1.page_faults := by rw [hs']; rfl
      have h2 : s'.num_free_frames = s1.num_free_frames := by rw [hs']; rfl
      have h3 : s'.page_table = s1.page_table := by rw [hs']; rfl
      refine ⟨by rw [h1, e4], by rw [h2, e6], ?_⟩
      rw [h3, e1, upd_same, h1, e4]
      omega

set_option maxRecDepth 100000 in
theorem allocation_order_witness :
    translate_all scenario_store [0, 0, 256] init_state =
      .ok (run_results scenario_store [0, 0, 256], run_state scenario_store [0, 0, 256]) ∧
    ((run_state scenario_store [0, 0, 256]).page_faults +
      (run_state scenario_store [0, 0, 256]).num_free_frames = 256 ∧
    0 ≤ (run_state scenario_store [0, 0, 256]).num_free_frames ∧
    0 ≤ (run_state scenario_store [0, 0, 256]).page_faults ∧
    (run_state scenario_store [0, 0, 256]).page_faults ≤ 256 ∧
    (∀ p q : Nat, p < PAGE_TABLE_SIZE → q < PAGE_TABLE_SIZE → p ≠ q →
      (run_state scenario_store [0, 0, 256]).page_table p ≠ TLB_MISS →
      (run_state scenario_store [0, 0, 256]).page_table q ≠ TLB_MISS →
      (run_state scenario_store [0, 0, 256]).page_table p ≠
        (run_state scenario_store [0, 0, 256]).page_table q) ∧
    (∀ p : Nat, p < PAGE_TABLE_SIZE →
      (run_state scenario_store [0, 0, 256]).page_table p ≠ TLB_MISS →
      1 ≤ (run_state scenario_store [0, 0, 256]).page_table p ∧
        (run_state scenario_store [0, 0, 256]).page_table p ≤ 256) ∧
    (∀ a pa s', path_of (run_state scenario_store [0, 0, 256]) a = .page_fault →
      translate_address scenario_store a (run_state scenario_store [0, 0, 256])
        = .ok (pa, s') →
      s'.page_faults = (run_state scenario_store [0, 0, 256]).page_faults + 1 ∧
      s'.num_free_frames = (run_state scenario_store [0, 0, 256]).num_free_frames - 1 ∧
      s'.page_table (extract_page_number a).toNat = 257 - s'.page_faults)) :=
  ⟨rfl, allocation_order scenario_store [0, 0, 256] _ _ rfl⟩

/-! ## Stores outside physical memory

The first page fault of a run stores its page at offset `256 * 256`, outside
`physical_memory`. -/

theorem handle_page_fault_out_of_array {bs : BackingStore} {p : Int} {s s1 : VM}
    (h : handle_page_fault bs p s = .ok s1) :
    s1.out_of_array = (s.out_of_array ||
      !store_in_array (s.num_free_frames * FRAME_SIZE) (fread_page bs (p * PAGE_SIZE))) := by
  unfold handle_page_fault at h
  by_cases h1 : bs.seekable (p * PAGE_SIZE) = false
  · simp [h1] at h
  · by_cases h2 : (fread_page bs (p * PAGE_SIZE)).length = PAGE_SIZE.toNat
    · simp only [h1, h2, if_false, ne_eq, not_true_eq_false] at h
      injection h with h
      subst h
      rfl
    · simp [h1, h2] at h

theorem store_in_array_first_frame {got : List Nat} (h : got ≠ []) :
    store_in_array (NUM_FRAMES * FRAME_SIZE) got = false := by
  unfold store_in_array
  have h1 : got.isEmpty = false := by
    cases got with
    | nil => exact absurd rfl h
    | cons b rest => rfl
  have h2 : in_physical_memory (NUM_FRAMES * FRAME_SIZE) = false := by decide
  rw [h1, h2]
  rfl

theorem tlb_lookup_init (a : Int) : tlb_lookup init_state (extract_page_number a) = none := by
  rw [tlb_lookup_none]
  intro j hj
  have h0 := extract_page_number_nonneg a
  have : init_state.tlb j 0 = -1 := by simp [init_state, hj]
  omega

theorem path_of_init (a : Int) : path_of init_state a = .page_fault := by
  have hp : init_state.page_table (extract_page_number a).toNat = TLB_MISS := by
    simp [init_state, extract_page_number_toNat_lt a]
  simp [path_of, tlb_lookup_init a, hp]

theorem first_translation_leaves_array {bs : BackingStore} {a pa : Int} {s' : VM}
    (h : translate_address bs a init_state = .ok (pa, s')) : s'.out_of_array = true := by
  rcases translate_address_cases h with ⟨i, hl, _⟩ | ⟨_, hm, _⟩ | ⟨_, _, s1, hf, he⟩
  · rw [tlb_lookup_init a] at hl; cases hl
  · exfalso
    apply hm
    simp [init_state, extract_page_number_toNat_lt a]
  · have hs' : s' = (tlb_update s1 (extract_page_number a) (extract_offset a)).2 :=
      congrArg Prod.snd he
    have hflag : s'.out_of_array = s1.out_of_array := by rw [hs']; rfl
    have hlen := ((handle_page_fault_ok_iff bs _ init_state).1 ⟨s1, hf⟩).2
    have hne : fread_page bs (extract_page_number a * PAGE_SIZE) ≠ [] := by
      intro hnil
      rw [hnil] at hlen
      exact absurd hlen (by decide)
    rw [hflag, handle_page_fault_out_of_array hf]
    have : store_in_array (init_state.num_free_frames * FRAME_SIZE)
        (fread_page bs (extract_page_number a * PAGE_SIZE)) = false :=
      store_in_array_first_frame hne
    rw [this]
    simp

theorem translate_address_out_of_array {bs : BackingStore} {a pa : Int} {s s' : VM}
    (h : translate_address bs a s = .ok (pa, s')) (hs : s.out_of_array = true) :
    s'.out_of_array = true := by
  rcases translate_address_cases h with ⟨i, _, he⟩ | ⟨_, _, he⟩ | ⟨_, _, s1, hf, he⟩
  · have : s' = (tlb_hit s i (extract_offset a)).2 := congrArg Prod.snd he
    rw [this]; exact hs
  · have : s' = (tlb_update s (extract_page_number a) (extract_offset a)).2 :=
      congrArg Prod.snd he
    rw [this]; exact hs
  · have hs' : s' = (tlb_update s1 (extract_page_number a) (extract_offset a)).2 :=
      congrArg Prod.snd he
    have hflag : s'.out_of_array = s1.out_of_array := by rw [hs']; rfl
    rw [hflag, handle_page_fault_out_of_array hf, hs]
    simp

theorem translate_all_out_of_array {bs : BackingStore} (addrs : List Int) :
    ∀ {s s' : VM} {pas : List Int}, translate_all bs addrs s = .ok (pas, s') →
      s.out_of_array = true → s'.out_of_array = true := by
  induction addrs with
  | nil =>
    intro s s' pas h hs
    simp only [translate_all] at h
    injection h with h
    injection h with _ h
    rw [← h]; exact hs
  | cons a rest ih =>
    intro s s' pas h hs
    obtain ⟨pa, s1, pas', h1, h2, _⟩ := translate_all_cons_ok h
    exact ih h2 (translate_address_out_of_array h1 hs)

/-- Every run of at least one translation from the initialised state has
stored a page outside `physical_memory`: its first translation is a page
fault, served at `num_free_frames = 256`. -/
theorem run_leaves_array {bs : BackingStore} {addrs pas : List Int} {s : VM}
    (h : translate_all bs addrs init_state = .ok (pas, s)) (hne : addrs ≠ []) :
    s.out_of_array = true := by
  cases addrs with
  | nil => exact absurd rfl hne
  | cons a rest =>
    obtain ⟨pa, s1, pas', h1, h2, _⟩ := translate_all_cons_ok h
    exact translate_all_out_of_array rest h2 (first_translation_leaves_array h1)

end Vmmgr
